import Mathlib

/-!
Verification of the matching engine of `matches.py`: the Gale-Shapley
deferred-acceptance loop (`doMatch`) and its greedy variant
(`doGreedyMatch`), together with the agent model (`Person`, `Proposer`,
`Proposee`).

The Python objects are embedded as immutable records; in-place mutation
becomes explicit state passing, `dict` lookups become association-list
lookups by name (a `KeyError` is a `fail` outcome), and the `while`
loop becomes a fuel-indexed step function.
-/

set_option autoImplicit false

/-- Embeds the Python class `Proposer(Person)`: `name`, `priorities`,
`partner` (initially `None`), `rank` (initially `None`) from `Person`,
plus `proposalIndex` (initially `0`). -/
structure Proposer where
  name : String
  priorities : List String
  partner : Option String
  rank : Option Nat
  proposalIndex : Nat
deriving Repr, DecidableEq

/-- Embeds the Python class `Proposee(Person)`: `name`, `priorities`,
`partner`, `rank`.  The derived dict `self.ranking` is represented by
`rankOf priorities` (see below) rather than stored. -/
structure Proposee where
  name : String
  priorities : List String
  partner : Option String
  rank : Option Nat
deriving Repr, DecidableEq

/-- The Python dict `self.ranking`, built by
`for rank in range(len(priorities)): ranking[priorities[rank]] = rank`.
Later assignments overwrite earlier ones, so a key's value is the index
of its LAST occurrence in `priorities`; a key that never occurs is
absent (`none`). -/
def rankOf : List String → String → Option Nat
  | [], _ => none
  | a :: as, k =>
    match rankOf as k with
    | some i => some (i + 1)
    | none => if a = k then some 0 else none

/-- Index of the first occurrence of `k` in a list (used to state what
"prefers strictly" means for a Proposer, whose list is consulted in
order). -/
def firstIdx : List String → String → Option Nat
  | [], _ => none
  | a :: as, k => if a = k then some 0 else (firstIdx as k).map (· + 1)

/-- Embeds `Proposer.nextProposal`:
if `proposalIndex >= len(priorities)` return `None` (cursor untouched),
else return `priorities[proposalIndex]` and advance the cursor. -/
def Proposer.nextProposal (p : Proposer) : Option String × Proposer :=
  match p.priorities.get? p.proposalIndex with
  | none => (none, p)
  | some goal => (some goal, { p with proposalIndex := p.proposalIndex + 1 })

/-- Embeds `Proposee.evaluateProposal(suitor)`: if `suitor in self.ranking`
then accept when `self.partner == None or
self.ranking[suitor] < self.ranking[self.partner]`, setting
`self.rank = self.ranking[suitor] + 1` on acceptance; otherwise reject.
The lookup `self.ranking[self.partner]` raises `KeyError` when the
current partner is not a key, embedded as the `none` outcome. -/
def Proposee.evaluateProposal (w : Proposee) (suitor : String) :
    Option (Bool × Proposee) :=
  match rankOf w.priorities suitor with
  | none => some (false, w)
  | some rs =>
    match w.partner with
    | none => some (true, { w with rank := some (rs + 1) })
    | some pt =>
      match rankOf w.priorities pt with
      | none => none
      | some rp =>
        if rs < rp then some (true, { w with rank := some (rs + 1) })
        else some (false, w)

/-- Embeds `Proposee.evaluateGreedily(suitor)`: accept only when
`suitor in self.ranking` and `self.partner == None`, setting
`self.rank = self.ranking[suitor] + 1`; cannot raise. -/
def Proposee.evaluateGreedily (w : Proposee) (suitor : String) :
    Bool × Proposee :=
  match rankOf w.priorities suitor with
  | none => (false, w)
  | some rs =>
    match w.partner with
    | none => (true, { w with rank := some (rs + 1) })
    | some _ => (false, w)

/-! ### Name-keyed dictionaries

The Python dicts `proposerPref` and `proposees` are embedded as lists
of records looked up by `name`; duplicate keys cannot arise from dict
construction, which is mirrored by `dinsert` below. -/

/-- Dict lookup `d[n]`; `none` is a `KeyError`. -/
def findBy {α : Type} (nm : α → String) (l : List α) (n : String) :
    Option α :=
  l.find? (fun x => nm x == n)

/-- Write-back of a mutated record into its dict slot. -/
def updBy {α : Type} (nm : α → String) (l : List α) (q : α) : List α :=
  l.map (fun x => if nm x == nm q then q else x)

/-- Dict insertion `d[k] = v`: overwrite in place when the key exists,
append otherwise (Python dicts keep the original key position). -/
def dinsert {α : Type} (nm : α → String) (l : List α) (x : α) : List α :=
  if l.any (fun y => nm y == nm x) then
    l.map (fun y => if nm y == nm x then x else y)
  else l ++ [x]

/-! ### The matching engine -/

/-- The mutable state of one `doMatch` / `doGreedyMatch` run:
the dict of proposers, the dict of proposees, and the `unmatched`
list of proposer names. -/
structure MatchState where
  proposers : List Proposer
  proposees : List Proposee
  unmatched : List String
deriving Repr, DecidableEq

/-- Outcome of one iteration of the `while len(unmatched) > 0` loop:
the loop guard fails (`halt`), an uncaught `KeyError` (`fail`), or the
next state (`cont`). -/
inductive StepOut where
  | halt
  | fail
  | cont (s : MatchState)
deriving Repr, DecidableEq

/-- State after an accepted proposal with no previous partner to dump:
`unmatched.pop(0)`; `who.partner = m.name`; `m.partner = who.name`;
`m.rank = m.proposalIndex`. -/
def acceptState (s : MatchState) (rest : List String) (m1 : Proposer)
    (who1 : Proposee) : MatchState :=
  { proposers := updBy Proposer.name s.proposers
      { m1 with partner := some who1.name, rank := some m1.proposalIndex },
    proposees := updBy Proposee.name s.proposees
      { who1 with partner := some m1.name },
    unmatched := rest }

/-- State after an accepted proposal that dumps the previous partner
`mOld`: `mOld.partner = None`; `mOld.rank = 0`;
`unmatched.append(mOld.name)`; then as in `acceptState`. -/
def acceptDumpState (s : MatchState) (rest : List String) (m1 : Proposer)
    (who1 : Proposee) (mOld : Proposer) : MatchState :=
  { proposers := updBy Proposer.name
      (updBy Proposer.name s.proposers
        { mOld with partner := none, rank := some 0 })
      { m1 with partner := some who1.name, rank := some m1.proposalIndex },
    proposees := updBy Proposee.name s.proposees
      { who1 with partner := some m1.name },
    unmatched := rest ++ [mOld.name] }

/-- One iteration of the loop body of `doMatch` (stable policy).
`m = proposerPref[unmatched[0]]`; `n = m.nextProposal()`; on `None`
`unmatched.pop(0)`; otherwise `who = proposees[n]` and
`who.evaluateProposal(m.name)` decides acceptance.  The Python guard
`if who.partner:` is string truthiness: an empty-string partner is
falsy and skips the dump branch. -/
def stableStep (s : MatchState) : StepOut :=
  match s.unmatched with
  | [] => StepOut.halt
  | m0 :: rest =>
    match findBy Proposer.name s.proposers m0 with
    | none => StepOut.fail
    | some m =>
      match m.nextProposal with
      | (none, _) => StepOut.cont { s with unmatched := rest }
      | (some n, m1) =>
        match findBy Proposee.name s.proposees n with
        | none => StepOut.fail
        | some who =>
          match who.evaluateProposal m1.name with
          | none => StepOut.fail
          | some (accept, who1) =>
            if accept then
              match who1.partner with
              | some pt =>
                if pt = "" then StepOut.cont (acceptState s rest m1 who1)
                else
                  match findBy Proposer.name s.proposers pt with
                  | none => StepOut.fail
                  | some mOld =>
                    StepOut.cont (acceptDumpState s rest m1 who1 mOld)
              | none => StepOut.cont (acceptState s rest m1 who1)
            else
              StepOut.cont { s with
                proposers := updBy Proposer.name s.proposers m1,
                proposees := updBy Proposee.name s.proposees who1 }

/-- One iteration of the loop body of `doGreedyMatch`: identical to
`stableStep` except the policy call is `who.evaluateGreedily(m.name)`. -/
def greedyStep (s : MatchState) : StepOut :=
  match s.unmatched with
  | [] => StepOut.halt
  | m0 :: rest =>
    match findBy Proposer.name s.proposers m0 with
    | none => StepOut.fail
    | some m =>
      match m.nextProposal with
      | (none, _) => StepOut.cont { s with unmatched := rest }
      | (some n, m1) =>
        match findBy Proposee.name s.proposees n with
        | none => StepOut.fail
        | some who =>
          match who.evaluateGreedily m1.name with
          | (accept, who1) =>
            if accept then
              match who1.partner with
              | some pt =>
                if pt = "" then StepOut.cont (acceptState s rest m1 who1)
                else
                  match findBy Proposer.name s.proposers pt with
                  | none => StepOut.fail
                  | some mOld =>
                    StepOut.cont (acceptDumpState s rest m1 who1 mOld)
              | none => StepOut.cont (acceptState s rest m1 who1)
            else
              StepOut.cont { s with
                proposers := updBy Proposer.name s.proposers m1,
                proposees := updBy Proposee.name s.proposees who1 }

/-- Result of running the whole loop with a fuel bound. -/
inductive RunResult where
  | finished (s : MatchState)
  | failed
  | fuelOut
deriving Repr, DecidableEq

/-- Embeds the `while len(unmatched) > 0` loop of `doMatch`, fuel-indexed:
`finished` is normal termination, `failed` an uncaught `KeyError`,
`fuelOut` means the loop was still running after `fuel` iterations. -/
def runStable : Nat → MatchState → RunResult
  | 0, s =>
    match stableStep s with
    | StepOut.halt => RunResult.finished s
    | StepOut.fail => RunResult.failed
    | StepOut.cont _ => RunResult.fuelOut
  | fuel + 1, s =>
    match stableStep s with
    | StepOut.halt => RunResult.finished s
    | StepOut.fail => RunResult.failed
    | StepOut.cont s2 => runStable fuel s2

/-- The state reached after exactly `k` completed loop iterations
(`none` when the loop halted, or failed, strictly earlier). -/
def stepsFrom (step : MatchState → StepOut) :
    Nat → MatchState → Option MatchState
  | 0, s => some s
  | k + 1, s =>
    match step s with
    | StepOut.cont s2 => stepsFrom step k s2
    | _ => none

/-- State construction in `doMatch`/`doGreedyMatch` from already-parsed
`(name, priorities)` pairs: build the two dicts, then
`unmatched = list(proposerPref.keys())`. -/
def mkState (proposerInput proposeeInput : List (String × List String)) :
    MatchState :=
  let ps := proposerInput.foldl
    (fun d pr => dinsert Proposer.name d
      { name := pr.1, priorities := pr.2, partner := none, rank := none,
        proposalIndex := 0 }) []
  { proposers := ps,
    proposees := proposeeInput.foldl
      (fun d pr => dinsert Proposee.name d
        { name := pr.1, priorities := pr.2, partner := none, rank := none })
      [],
    unmatched := ps.map Proposer.name }

/-! ### Lemmas about `rankOf` and `firstIdx` -/

theorem rankOf_get {l : List String} {k : String} {i : Nat}
    (h : rankOf l k = some i) : l.get? i = some k := by
  induction l generalizing i with
  | nil => simp [rankOf] at h
  | cons a as ih =>
    rw [rankOf] at h
    cases hr : rankOf as k with
    | some j =>
      rw [hr] at h
      cases h
      simpa using ih hr
    | none =>
      rw [hr] at h
      by_cases hak : a = k
      · simp [hak] at h
        cases h
        simp [hak]
      · simp [hak] at h

theorem rankOf_eq_none_of_not_mem {l : List String} {k : String}
    (h : k ∉ l) : rankOf l k = none := by
  induction l with
  | nil => rfl
  | cons a as ih =>
    simp only [List.mem_cons, not_or] at h
    rw [rankOf, ih h.2]
    simp [h.1, Ne.symm h.1]

theorem exists_rankOf_of_mem {l : List String} {k : String}
    (h : k ∈ l) : ∃ i, rankOf l k = some i := by
  induction l with
  | nil => simp at h
  | cons a as ih =>
    rw [rankOf]
    cases hr : rankOf as k with
    | some j => exact ⟨j + 1, rfl⟩
    | none =>
      have hknas : k ∉ as := by
        intro hmem
        obtain ⟨i, hi⟩ := ih hmem
        rw [hi] at hr
        cases hr
      have hak : a = k := by
        rcases List.mem_cons.1 h with h1 | h1
        · exact h1.symm
        · exact absurd h1 hknas
      exact ⟨0, by simp [hak]⟩

theorem mem_of_rankOf_some {l : List String} {k : String} {i : Nat}
    (h : rankOf l k = some i) : k ∈ l :=
  List.get?_mem (rankOf_get h)

theorem rankOf_inj {l : List String} {a b : String} {i : Nat}
    (ha : rankOf l a = some i) (hb : rankOf l b = some i) : a = b := by
  have h1 := rankOf_get ha
  have h2 := rankOf_get hb
  rw [h1] at h2
  exact Option.some_inj.1 h2

theorem firstIdx_get {l : List String} {k : String} {i : Nat}
    (h : firstIdx l k = some i) : l.get? i = some k := by
  induction l generalizing i with
  | nil => simp [firstIdx] at h
  | cons a as ih =>
    rw [firstIdx] at h
    by_cases hak : a = k
    · simp [hak] at h
      cases h
      simp [hak]
    · simp [hak] at h
      cases hr : firstIdx as k with
      | none => rw [hr] at h; simp at h
      | some j =>
        rw [hr] at h
        simp at h
        cases h
        simpa using ih hr

theorem firstIdx_le_of_get {l : List String} {k : String} {j : Nat}
    (h : l.get? j = some k) : ∃ i, firstIdx l k = some i ∧ i ≤ j := by
  induction l generalizing j with
  | nil => simp at h
  | cons a as ih =>
    rw [firstIdx]
    by_cases hak : a = k
    · exact ⟨0, by simp [hak], Nat.zero_le j⟩
    · cases j with
      | zero =>
        simp at h
        exact absurd h hak
      | succ j0 =>
        simp only [List.get?_cons_succ] at h
        obtain ⟨i, hi, hle⟩ := ih h
        exact ⟨i + 1, by simp [hak, hi], Nat.succ_le_succ hle⟩

/-! ### Lemmas about the dictionary operations -/

section Dict

variable {α : Type} {nm : α → String}

theorem findBy_some {l : List α} {n : String} {x : α}
    (h : findBy nm l n = some x) : x ∈ l ∧ nm x = n := by
  refine ⟨List.mem_of_find?_eq_some h, ?_⟩
  have := List.find?_some h
  simpa using this

theorem findBy_eq_none {l : List α} {n : String}
    (h : findBy nm l n = none) : ∀ x ∈ l, nm x ≠ n := by
  intro x hx
  have := List.find?_eq_none.1 h x hx
  simpa using this

theorem findBy_mem {l : List α} {x : α} (hx : x ∈ l)
    (hnd : (l.map nm).Nodup) : findBy nm l (nm x) = some x := by
  induction l with
  | nil => simp at hx
  | cons a as ih =>
    simp only [List.map_cons, List.nodup_cons] at hnd
    rcases List.mem_cons.1 hx with h1 | h1
    · subst h1
      simp [findBy, List.find?]
    · have hne : nm a ≠ nm x := by
        intro he
        exact hnd.1 (he ▸ List.mem_map_of_mem nm h1)
      simp only [findBy, List.find?]
      rw [show (nm a == nm x) = false by simpa using hne]
      exact ih h1 hnd.2

theorem mem_unique_of_nodup {l : List α} {x y : α} (hx : x ∈ l)
    (hy : y ∈ l) (hnm : nm x = nm y) (hnd : (l.map nm).Nodup) : x = y := by
  have h1 := findBy_mem hx hnd
  have h2 := findBy_mem hy hnd
  rw [hnm] at h1
  rw [h1] at h2
  exact Option.some_inj.1 h2

theorem updBy_cons_pos {as : List α} {a q : α} (h : nm a = nm q) :
    updBy nm (a :: as) q = q :: updBy nm as q := by
  simp only [updBy, List.map_cons]
  rw [if_pos (by simpa using h)]

theorem updBy_cons_neg {as : List α} {a q : α} (h : nm a ≠ nm q) :
    updBy nm (a :: as) q = a :: updBy nm as q := by
  simp only [updBy, List.map_cons]
  rw [if_neg (by simpa using h)]

theorem updBy_map_nm {l : List α} {q : α} :
    (updBy nm l q).map nm = l.map nm := by
  induction l with
  | nil => rfl
  | cons a as ih =>
    by_cases h : nm a = nm q
    · rw [updBy_cons_pos h, List.map_cons, List.map_cons, ih, h]
    · rw [updBy_cons_neg h, List.map_cons, List.map_cons, ih]

theorem mem_updBy {l : List α} {q x : α} (h : x ∈ updBy nm l q) :
    x = q ∨ (x ∈ l ∧ nm x ≠ nm q) := by
  induction l with
  | nil => simp [updBy] at h
  | cons a as ih =>
    by_cases hq : nm a = nm q
    · rw [updBy_cons_pos hq] at h
      rcases List.mem_cons.1 h with h1 | h1
      · exact Or.inl h1
      · rcases ih h1 with h2 | h2
        · exact Or.inl h2
        · exact Or.inr ⟨List.mem_cons_of_mem a h2.1, h2.2⟩
    · rw [updBy_cons_neg hq] at h
      rcases List.mem_cons.1 h with h1 | h1
      · exact Or.inr ⟨h1 ▸ List.mem_cons_self a as, h1 ▸ hq⟩
      · rcases ih h1 with h2 | h2
        · exact Or.inl h2
        · exact Or.inr ⟨List.mem_cons_of_mem a h2.1, h2.2⟩

theorem mem_updBy_of_mem {l : List α} {q x : α} (hx : x ∈ l)
    (hne : nm x ≠ nm q) : x ∈ updBy nm l q := by
  induction l with
  | nil => simp at hx
  | cons a as ih =>
    rcases List.mem_cons.1 hx with h1 | h1
    · subst h1
      rw [updBy_cons_neg hne]
      exact List.mem_cons_self x _
    · by_cases hq : nm a = nm q
      · rw [updBy_cons_pos hq]
        exact List.mem_cons_of_mem q (ih h1)
      · rw [updBy_cons_neg hq]
        exact List.mem_cons_of_mem a (ih h1)

theorem self_mem_updBy {l : List α} {q : α} {e : α} (he : e ∈ l)
    (hn : nm e = nm q) : q ∈ updBy nm l q := by
  induction l with
  | nil => simp at he
  | cons a as ih =>
    rcases List.mem_cons.1 he with h1 | h1
    · rw [updBy_cons_pos (h1 ▸ hn)]
      exact List.mem_cons_self q _
    · by_cases hq : nm a = nm q
      · rw [updBy_cons_pos hq]
        exact List.mem_cons_self q _
      · rw [updBy_cons_neg hq]
        exact List.mem_cons_of_mem a (ih h1)

theorem findBy_cons_pos {as : List α} {a : α} {n : String}
    (h : nm a = n) : findBy nm (a :: as) n = some a := by
  simp only [findBy]
  exact List.find?_cons_of_pos _ (by simpa using h)

theorem findBy_cons_neg {as : List α} {a : α} {n : String}
    (h : nm a ≠ n) : findBy nm (a :: as) n = findBy nm as n := by
  simp only [findBy]
  exact List.find?_cons_of_neg _ (by simpa using h)

theorem findBy_updBy_ne {l : List α} {q : α} {n : String}
    (h : n ≠ nm q) : findBy nm (updBy nm l q) n = findBy nm l n := by
  induction l with
  | nil => rfl
  | cons a as ih =>
    by_cases hq : nm a = nm q
    · rw [updBy_cons_pos hq, findBy_cons_neg (Ne.symm h),
        findBy_cons_neg (hq ▸ (Ne.symm h : nm q ≠ n)), ih]
    · by_cases hn : nm a = n
      · rw [updBy_cons_neg hq, findBy_cons_pos hn, findBy_cons_pos hn]
      · rw [updBy_cons_neg hq, findBy_cons_neg hn, findBy_cons_neg hn, ih]

theorem findBy_updBy_self {l : List α} {q e : α} (he : e ∈ l)
    (hn : nm e = nm q) : findBy nm (updBy nm l q) (nm q) = some q := by
  induction l with
  | nil => simp at he
  | cons a as ih =>
    by_cases hq : nm a = nm q
    · rw [updBy_cons_pos hq, findBy_cons_pos rfl]
    · rw [updBy_cons_neg hq]
      rcases List.mem_cons.1 he with h1 | h1
      · exact absurd (h1 ▸ hn) hq
      · rw [findBy_cons_neg hq]
        exact ih h1

theorem updBy_not_mem {l : List α} {q : α}
    (h : ∀ y ∈ l, nm y ≠ nm q) : updBy nm l q = l := by
  induction l with
  | nil => rfl
  | cons a as ih =>
    rw [updBy_cons_neg (h a (List.mem_cons_self a as))]
    rw [ih (fun y hy => h y (List.mem_cons_of_mem a hy))]

theorem updBy_self_eq {l : List α} {e : α} (he : e ∈ l)
    (hnd : (l.map nm).Nodup) : updBy nm l e = l := by
  induction l with
  | nil => rfl
  | cons a as ih =>
    simp only [List.map_cons, List.nodup_cons] at hnd
    rcases List.mem_cons.1 he with h1 | h1
    · subst h1
      rw [updBy_cons_pos rfl]
      have hno : ∀ y ∈ as, nm y ≠ nm e := by
        intro y hy hc
        exact hnd.1 (hc ▸ List.mem_map_of_mem nm hy)
      rw [updBy_not_mem hno]
    · have hne : nm a ≠ nm e := by
        intro hc
        exact hnd.1 (hc ▸ List.mem_map_of_mem nm h1)
      rw [updBy_cons_neg hne, ih h1 hnd.2]

theorem sum_map_updBy {l : List α} (q : α) {e : α} (f : α → Nat) (he : e ∈ l)
    (hn : nm e = nm q) (hnd : (l.map nm).Nodup) :
    ((updBy nm l q).map f).sum + f e = (l.map f).sum + f q := by
  induction l with
  | nil => simp at he
  | cons a as ih =>
    simp only [List.map_cons, List.nodup_cons] at hnd
    rcases List.mem_cons.1 he with h1 | h1
    · subst h1
      rw [updBy_cons_pos hn]
      have hno : ∀ y ∈ as, nm y ≠ nm q := by
        intro y hy hc
        exact hnd.1 ((hc.trans hn.symm) ▸ List.mem_map_of_mem nm hy)
      rw [updBy_not_mem hno]
      simp only [List.map_cons, List.sum_cons]
      omega
    · have hne : nm a ≠ nm q := by
        intro hc
        exact hnd.1 ((hn ▸ hc : nm a = nm e) ▸ List.mem_map_of_mem nm h1)
      rw [updBy_cons_neg hne]
      simp only [List.map_cons, List.sum_cons]
      have := ih h1 hnd.2
      omega

end Dict

/-! ### Inversion lemmas for the agent operations -/

theorem nextProposal_none {p px : Proposer}
    (h : p.nextProposal = (none, px)) :
    p.priorities.get? p.proposalIndex = none ∧ px = p := by
  rw [Proposer.nextProposal] at h
  cases hg : p.priorities.get? p.proposalIndex with
  | none => rw [hg] at h; exact ⟨rfl, (Prod.mk.injEq _ _ _ _ ▸ h).2.symm⟩
  | some g => rw [hg] at h; simp at h

theorem nextProposal_some {p p1 : Proposer} {n : String}
    (h : p.nextProposal = (some n, p1)) :
    p.priorities.get? p.proposalIndex = some n ∧
      p1 = { p with proposalIndex := p.proposalIndex + 1 } := by
  rw [Proposer.nextProposal] at h
  cases hg : p.priorities.get? p.proposalIndex with
  | none => rw [hg] at h; simp at h
  | some g =>
    rw [hg] at h
    have h1 := (Prod.mk.injEq _ _ _ _ ▸ h).1
    have h2 := (Prod.mk.injEq _ _ _ _ ▸ h).2
    cases h1
    exact ⟨rfl, h2.symm⟩

theorem evalProposal_true {w w1 : Proposee} {sid : String}
    (h : w.evaluateProposal sid = some (true, w1)) :
    ∃ rs, rankOf w.priorities sid = some rs ∧
      w1 = { w with rank := some (rs + 1) } ∧
      (w.partner = none ∨
        ∃ pt rp, w.partner = some pt ∧ rankOf w.priorities pt = some rp ∧
          rs < rp) := by
  cases hs : rankOf w.priorities sid with
  | none => simp only [Proposee.evaluateProposal, hs] at h; simp at h
  | some rs =>
    refine ⟨rs, rfl, ?_⟩
    cases hp : w.partner with
    | none =>
      simp only [Proposee.evaluateProposal, hs, hp] at h
      simp at h
      exact ⟨h.symm, Or.inl rfl⟩
    | some pt =>
      cases hr : rankOf w.priorities pt with
      | none =>
        simp only [Proposee.evaluateProposal, hs, hp, hr] at h
        simp at h
      | some rp =>
        simp only [Proposee.evaluateProposal, hs, hp, hr] at h
        by_cases hlt : rs < rp
        · rw [if_pos hlt] at h
          simp at h
          exact ⟨h.symm, Or.inr ⟨pt, rp, rfl, hr, hlt⟩⟩
        · rw [if_neg hlt] at h
          simp at h

theorem evalProposal_false {w w1 : Proposee} {sid : String}
    (h : w.evaluateProposal sid = some (false, w1)) :
    w1 = w ∧
      (rankOf w.priorities sid = none ∨
        ∃ rs pt rp, rankOf w.priorities sid = some rs ∧
          w.partner = some pt ∧ rankOf w.priorities pt = some rp ∧
          rp ≤ rs) := by
  cases hs : rankOf w.priorities sid with
  | none =>
    simp only [Proposee.evaluateProposal, hs] at h
    simp at h
    exact ⟨h.symm, Or.inl rfl⟩
  | some rs =>
    cases hp : w.partner with
    | none => simp only [Proposee.evaluateProposal, hs, hp] at h; simp at h
    | some pt =>
      cases hr : rankOf w.priorities pt with
      | none =>
        simp only [Proposee.evaluateProposal, hs, hp, hr] at h
        simp at h
      | some rp =>
        simp only [Proposee.evaluateProposal, hs, hp, hr] at h
        by_cases hlt : rs < rp
        · rw [if_pos hlt] at h; simp at h
        · rw [if_neg hlt] at h
          simp at h
          exact ⟨h.symm,
            Or.inr ⟨rs, pt, rp, rfl, rfl, hr, Nat.le_of_not_lt hlt⟩⟩

theorem evalProposal_partner_eq {w : Proposee} {sid : String} {b : Bool}
    {w1 : Proposee} (h : w.evaluateProposal sid = some (b, w1)) :
    w1.partner = w.partner ∧ w1.priorities = w.priorities ∧
      w1.name = w.name := by
  cases b with
  | true =>
    obtain ⟨rs, _, hw1, _⟩ := evalProposal_true h
    subst hw1
    exact ⟨rfl, rfl, rfl⟩
  | false =>
    obtain ⟨hw1, _⟩ := evalProposal_false h
    subst hw1
    exact ⟨rfl, rfl, rfl⟩

theorem evalGreedy_true {w w1 : Proposee} {sid : String}
    (h : w.evaluateGreedily sid = (true, w1)) :
    ∃ rs, rankOf w.priorities sid = some rs ∧ w.partner = none ∧
      w1 = { w with rank := some (rs + 1) } := by
  cases hs : rankOf w.priorities sid with
  | none => simp only [Proposee.evaluateGreedily, hs] at h; simp at h
  | some rs =>
    cases hp : w.partner with
    | none =>
      simp only [Proposee.evaluateGreedily, hs, hp] at h
      simp at h
      exact ⟨rs, rfl, rfl, h.symm⟩
    | some pt =>
      simp only [Proposee.evaluateGreedily, hs, hp] at h
      simp at h

theorem evalGreedy_false {w w1 : Proposee} {sid : String}
    (h : w.evaluateGreedily sid = (false, w1)) : w1 = w := by
  cases hs : rankOf w.priorities sid with
  | none =>
    simp only [Proposee.evaluateGreedily, hs] at h
    simpa using h.symm
  | some rs =>
    cases hp : w.partner with
    | none =>
      simp only [Proposee.evaluateGreedily, hs, hp] at h
      simp at h
    | some pt =>
      simp only [Proposee.evaluateGreedily, hs, hp] at h
      simpa using h.symm

/-! ### Inversion lemmas for the engine steps -/

theorem stableStep_cont {s s' : MatchState}
    (h : stableStep s = StepOut.cont s') :
    ∃ m0 rest m, s.unmatched = m0 :: rest ∧
      findBy Proposer.name s.proposers m0 = some m ∧
      ((∃ mx, m.nextProposal = (none, mx) ∧ s' = { s with unmatched := rest }) ∨
        ∃ n m1 who, m.nextProposal = (some n, m1) ∧
          findBy Proposee.name s.proposees n = some who ∧
          ((∃ who1, who.evaluateProposal m1.name = some (false, who1) ∧
              s' = { s with proposers := updBy Proposer.name s.proposers m1,
                            proposees := updBy Proposee.name s.proposees who1 }) ∨
            (∃ who1, who.evaluateProposal m1.name = some (true, who1) ∧
              (who1.partner = none ∨ who1.partner = some "") ∧
              s' = acceptState s rest m1 who1) ∨
            (∃ who1 pt mOld, who.evaluateProposal m1.name = some (true, who1) ∧
              who1.partner = some pt ∧ pt ≠ "" ∧
              findBy Proposer.name s.proposers pt = some mOld ∧
              s' = acceptDumpState s rest m1 who1 mOld))) := by
  cases hu : s.unmatched with
  | nil => simp only [stableStep, hu] at h; cases h
  | cons m0 rest =>
    cases hf : findBy Proposer.name s.proposers m0 with
    | none => simp only [stableStep, hu, hf] at h; cases h
    | some m =>
      refine ⟨m0, rest, m, rfl, hf, ?_⟩
      cases hnp : m.nextProposal with
      | mk o m1x =>
        cases o with
        | none =>
          simp only [stableStep, hu, hf, hnp] at h
          cases h
          exact Or.inl ⟨m1x, rfl, rfl⟩
        | some n =>
          cases hw : findBy Proposee.name s.proposees n with
          | none => simp only [stableStep, hu, hf, hnp, hw] at h; cases h
          | some who =>
            refine Or.inr ⟨n, m1x, who, rfl, hw, ?_⟩
            cases hev : who.evaluateProposal m1x.name with
            | none =>
              simp only [stableStep, hu, hf, hnp, hw, hev] at h
              cases h
            | some bw =>
              cases bw with
              | mk accept who1 =>
                cases accept with
                | false =>
                  simp only [stableStep, hu, hf, hnp, hw, hev,
                    Bool.false_eq_true, if_false] at h
                  cases h
                  exact Or.inl ⟨who1, rfl, rfl⟩
                | true =>
                  cases hpt : who1.partner with
                  | none =>
                    simp only [stableStep, hu, hf, hnp, hw, hev, hpt,
                      if_true] at h
                    cases h
                    exact Or.inr (Or.inl ⟨who1, rfl, Or.inl hpt, rfl⟩)
                  | some pt =>
                    by_cases hem : pt = ""
                    · subst hem
                      simp only [stableStep, hu, hf, hnp, hw, hev, hpt,
                        if_true, if_pos rfl] at h
                      cases h
                      exact Or.inr (Or.inl ⟨who1, rfl, Or.inr hpt, rfl⟩)
                    · cases hfo : findBy Proposer.name s.proposers pt with
                      | none =>
                        simp only [stableStep, hu, hf, hnp, hw, hev, hpt,
                          if_true, if_neg hem, hfo] at h
                        cases h
                      | some mOld =>
                        simp only [stableStep, hu, hf, hnp, hw, hev, hpt,
                          if_true, if_neg hem, hfo] at h
                        cases h
                        exact Or.inr (Or.inr
                          ⟨who1, pt, mOld, rfl, hpt, hem, hfo, rfl⟩)

theorem stableStep_fail {s : MatchState} (h : stableStep s = StepOut.fail) :
    ∃ m0 rest, s.unmatched = m0 :: rest ∧
      (findBy Proposer.name s.proposers m0 = none ∨
        ∃ m, findBy Proposer.name s.proposers m0 = some m ∧
          ∃ n m1, m.nextProposal = (some n, m1) ∧
            (findBy Proposee.name s.proposees n = none ∨
              ∃ who, findBy Proposee.name s.proposees n = some who ∧
                (who.evaluateProposal m1.name = none ∨
                  ∃ who1 pt, who.evaluateProposal m1.name = some (true, who1) ∧
                    who1.partner = some pt ∧ pt ≠ "" ∧
                    findBy Proposer.name s.proposers pt = none))) := by
  cases hu : s.unmatched with
  | nil => simp only [stableStep, hu] at h; cases h
  | cons m0 rest =>
    refine ⟨m0, rest, rfl, ?_⟩
    cases hf : findBy Proposer.name s.proposers m0 with
    | none => exact Or.inl rfl
    | some m =>
      refine Or.inr ⟨m, rfl, ?_⟩
      cases hnp : m.nextProposal with
      | mk o m1x =>
        cases o with
        | none => simp only [stableStep, hu, hf, hnp] at h; cases h
        | some n =>
          refine ⟨n, m1x, rfl, ?_⟩
          cases hw : findBy Proposee.name s.proposees n with
          | none => exact Or.inl rfl
          | some who =>
            refine Or.inr ⟨who, rfl, ?_⟩
            cases hev : who.evaluateProposal m1x.name with
            | none => exact Or.inl rfl
            | some bw =>
              cases bw with
              | mk accept who1 =>
                cases accept with
                | false =>
                  simp only [stableStep, hu, hf, hnp, hw, hev,
                    Bool.false_eq_true, if_false] at h
                  cases h
                | true =>
                  cases hpt : who1.partner with
                  | none =>
                    simp only [stableStep, hu, hf, hnp, hw, hev, hpt,
                      if_true] at h
                    cases h
                  | some pt =>
                    by_cases hem : pt = ""
                    · subst hem
                      simp only [stableStep, hu, hf, hnp, hw, hev, hpt,
                        if_true, if_pos rfl] at h
                      cases h
                    · cases hfo : findBy Proposer.name s.proposers pt with
                      | none =>
                        exact Or.inr ⟨who1, pt, rfl, hpt, hem, hfo⟩
                      | some mOld =>
                        simp only [stableStep, hu, hf, hnp, hw, hev, hpt,
                          if_true, if_neg hem, hfo] at h
                        cases h

theorem greedyStep_cont {s s' : MatchState}
    (h : greedyStep s = StepOut.cont s') :
    ∃ m0 rest m, s.unmatched = m0 :: rest ∧
      findBy Proposer.name s.proposers m0 = some m ∧
      ((∃ mx, m.nextProposal = (none, mx) ∧ s' = { s with unmatched := rest }) ∨
        ∃ n m1 who, m.nextProposal = (some n, m1) ∧
          findBy Proposee.name s.proposees n = some who ∧
          ((∃ who1, who.evaluateGreedily m1.name = (false, who1) ∧
              who1 = who ∧
              s' = { s with proposers := updBy Proposer.name s.proposers m1,
                            proposees := updBy Proposee.name s.proposees who1 }) ∨
            (∃ who1, who.evaluateGreedily m1.name = (true, who1) ∧
              who.partner = none ∧ who1.partner = none ∧
              s' = acceptState s rest m1 who1))) := by
  cases hu : s.unmatched with
  | nil => simp only [greedyStep, hu] at h; cases h
  | cons m0 rest =>
    cases hf : findBy Proposer.name s.proposers m0 with
    | none => simp only [greedyStep, hu, hf] at h; cases h
    | some m =>
      refine ⟨m0, rest, m, rfl, hf, ?_⟩
      cases hnp : m.nextProposal with
      | mk o m1x =>
        cases o with
        | none =>
          simp only [greedyStep, hu, hf, hnp] at h
          cases h
          exact Or.inl ⟨m1x, rfl, rfl⟩
        | some n =>
          cases hw : findBy Proposee.name s.proposees n with
          | none => simp only [greedyStep, hu, hf, hnp, hw] at h; cases h
          | some who =>
            refine Or.inr ⟨n, m1x, who, rfl, hw, ?_⟩
            cases hev : who.evaluateGreedily m1x.name with
            | mk accept who1 =>
              cases accept with
              | false =>
                simp only [greedyStep, hu, hf, hnp, hw, hev,
                  Bool.false_eq_true, if_false] at h
                cases h
                exact Or.inl ⟨who1, rfl, evalGreedy_false hev, rfl⟩
              | true =>
                obtain ⟨rs, hrs, hwp, hw1⟩ := evalGreedy_true hev
                have hpt : who1.partner = none := by rw [hw1]; exact hwp
                simp only [greedyStep, hu, hf, hnp, hw, hev, hpt,
                  if_true] at h
                cases h
                exact Or.inr ⟨who1, rfl, hwp, hpt, rfl⟩

theorem greedyStep_fail {s : MatchState} (h : greedyStep s = StepOut.fail) :
    ∃ m0 rest, s.unmatched = m0 :: rest ∧
      (findBy Proposer.name s.proposers m0 = none ∨
        ∃ m, findBy Proposer.name s.proposers m0 = some m ∧
          ∃ n m1, m.nextProposal = (some n, m1) ∧
            findBy Proposee.name s.proposees n = none) := by
  cases hu : s.unmatched with
  | nil => simp only [greedyStep, hu] at h; cases h
  | cons m0 rest =>
    refine ⟨m0, rest, rfl, ?_⟩
    cases hf : findBy Proposer.name s.proposers m0 with
    | none => exact Or.inl rfl
    | some m =>
      refine Or.inr ⟨m, rfl, ?_⟩
      cases hnp : m.nextProposal with
      | mk o m1x =>
        cases o with
        | none => simp only [greedyStep, hu, hf, hnp] at h; cases h
        | some n =>
          refine ⟨n, m1x, rfl, ?_⟩
          cases hw : findBy Proposee.name s.proposees n with
          | none => rfl
          | some who =>
            cases hev : who.evaluateGreedily m1x.name with
            | mk accept who1 =>
              cases accept with
              | false =>
                simp only [greedyStep, hu, hf, hnp, hw, hev,
                  Bool.false_eq_true, if_false] at h
                cases h
              | true =>
                obtain ⟨rs, hrs, hwp, hw1⟩ := evalGreedy_true hev
                have hpt : who1.partner = none := by rw [hw1]; exact hwp
                simp only [greedyStep, hu, hf, hnp, hw, hev, hpt,
                  if_true] at h
                cases h

/-! ### Loop invariants

`InvG` is the part that both policies maintain; `Inv` adds the
stable-policy facts (among them the Gale-Shapley rejection history). -/

/-- Invariant maintained by both `doMatch` and `doGreedyMatch` at every
quiescent point: well-formed dicts, the `unmatched` list holds
(unpartnered) proposer names without duplicates, and the `partner`
relation is symmetric. -/
structure InvG (s : MatchState) : Prop where
  nodupP : (s.proposers.map Proposer.name).Nodup
  nodupW : (s.proposees.map Proposee.name).Nodup
  nodupU : s.unmatched.Nodup
  unmSub : ∀ u ∈ s.unmatched, ∃ p ∈ s.proposers, p.name = u
  unmFree : ∀ p ∈ s.proposers, p.name ∈ s.unmatched → p.partner = none
  symPW : ∀ p ∈ s.proposers, ∀ wn, p.partner = some wn →
    ∃ w ∈ s.proposees, w.name = wn ∧ w.partner = some p.name
  symWP : ∀ w ∈ s.proposees, ∀ pn, w.partner = some pn →
    ∃ p ∈ s.proposers, p.name = pn ∧ p.partner = some w.name

/-- Full invariant of the stable (`doMatch`) loop.  `rejected` is the
Gale-Shapley history fact: every proposee already tried by a proposer
either is its current partner, finds it unacceptable, or currently
holds a strictly better partner. -/
structure SInv (s : MatchState) extends InvG s : Prop where
  prioValid : ∀ p ∈ s.proposers, ∀ x ∈ p.priorities,
    ∃ w ∈ s.proposees, w.name = x
  pnameNe : ∀ p ∈ s.proposers, p.name ≠ ""
  matchedHist : ∀ p ∈ s.proposers, ∀ wn, p.partner = some wn →
    1 ≤ p.proposalIndex ∧
      p.priorities.get? (p.proposalIndex - 1) = some wn
  wrank : ∀ w ∈ s.proposees, ∀ pn, w.partner = some pn →
    ∃ r, rankOf w.priorities pn = some r ∧ w.rank = some (r + 1)
  prank : ∀ p ∈ s.proposers, p.partner ≠ none →
    p.rank = some p.proposalIndex
  rejected : ∀ p ∈ s.proposers, ∀ j, j < p.proposalIndex →
    ∀ w ∈ s.proposees, p.priorities.get? j = some w.name →
      p.partner = some w.name ∨ rankOf w.priorities p.name = none ∨
        (∃ pn r r2, w.partner = some pn ∧
          rankOf w.priorities pn = some r ∧
          rankOf w.priorities p.name = some r2 ∧ r < r2)
  cursorLe : ∀ p ∈ s.proposers, p.proposalIndex ≤ p.priorities.length

theorem exists_name_updBy {α : Type} {nm : α → String} {l : List α}
    {q : α} {x : String} (h : ∃ w ∈ l, nm w = x) :
    ∃ w ∈ updBy nm l q, nm w = x := by
  obtain ⟨w, hw, hx⟩ := h
  have : x ∈ (updBy nm l q).map nm := by
    rw [updBy_map_nm]
    exact hx ▸ List.mem_map_of_mem nm hw
  obtain ⟨w', hw', hx'⟩ := List.mem_map.1 this
  exact ⟨w', hw', hx'⟩

theorem invG_exhaust {s : MatchState} {m0 : String} {rest : List String}
    (hI : InvG s) (hu : s.unmatched = m0 :: rest) :
    InvG { s with unmatched := rest } := by
  obtain ⟨h1, h2, h3, h4, h5, h6, h7⟩ := hI
  rw [hu] at h3 h4 h5
  refine ⟨h1, h2, (List.nodup_cons.1 h3).2, ?_, ?_, h6, h7⟩
  · intro u hu2
    exact h4 u (List.mem_cons_of_mem m0 hu2)
  · intro p hp hmem
    exact h5 p hp (List.mem_cons_of_mem m0 hmem)

theorem inv_exhaust {s : MatchState} {m0 : String} {rest : List String}
    (hI : SInv s) (hu : s.unmatched = m0 :: rest) :
    SInv { s with unmatched := rest } := by
  obtain ⟨hG, h8, h9, h10, h11, h12, h13, h14⟩ := hI
  exact ⟨invG_exhaust hG hu, h8, h9, h10, h11, h12, h13, h14⟩

theorem inv_reject {s : MatchState} {m0 : String} {rest : List String}
    {m m1 : Proposer} {n : String} {who who1 : Proposee}
    (hI : SInv s) (hu : s.unmatched = m0 :: rest)
    (hf : findBy Proposer.name s.proposers m0 = some m)
    (hnp : m.nextProposal = (some n, m1))
    (hw : findBy Proposee.name s.proposees n = some who)
    (hev : who.evaluateProposal m1.name = some (false, who1)) :
    SInv { s with proposers := updBy Proposer.name s.proposers m1,
                  proposees := updBy Proposee.name s.proposees who1 } := by
  obtain ⟨⟨h1, h2, h3, h4, h5, h6, h7⟩, h8, h9, h10, h11, h12, h13, h14⟩ := hI
  obtain ⟨hm, hmn⟩ := findBy_some hf
  obtain ⟨hwm, hwn⟩ := findBy_some hw
  have hmp : m.partner = none :=
    h5 m hm (by rw [hu, hmn]; exact List.mem_cons_self m0 rest)
  obtain ⟨hget, hm1⟩ := nextProposal_some hnp
  obtain ⟨hwho1, hrej⟩ := evalProposal_false hev
  subst hm1
  rw [hwho1, updBy_self_eq hwm h2]
  have hcur : m.proposalIndex < m.priorities.length := by
    by_contra hc
    rw [List.get?_eq_none.2 (Nat.le_of_not_lt hc)] at hget
    cases hget
  refine ⟨⟨?_, h2, h3, ?_, ?_, ?_, ?_⟩, ?_, ?_, ?_, h11, ?_, ?_, ?_⟩
  · rw [show ({ s with
        proposers := updBy Proposer.name s.proposers
          { m with proposalIndex := m.proposalIndex + 1 },
        proposees := s.proposees } : MatchState).proposers.map Proposer.name
      = s.proposers.map Proposer.name from updBy_map_nm]
    exact h1
  · intro u hu2
    rcases h4 u hu2 with ⟨p, hp, hpn⟩
    by_cases hc : p.name = m.name
    · refine ⟨{ m with proposalIndex := m.proposalIndex + 1 },
        self_mem_updBy hm rfl, ?_⟩
      show m.name = u
      rw [← hc, hpn]
    · exact ⟨p, mem_updBy_of_mem hp hc, hpn⟩
  · intro p hp hpm
    rcases mem_updBy hp with rfl | ⟨hpmem, hpne⟩
    · exact hmp
    · exact h5 p hpmem hpm
  · intro p hp wn hpw
    rcases mem_updBy hp with rfl | ⟨hpmem, hpne⟩
    · exact absurd hpw (by rw [show ({ m with
        proposalIndex := m.proposalIndex + 1 } : Proposer).partner
          = m.partner from rfl, hmp]; simp)
    · exact h6 p hpmem wn hpw
  · intro w hw2 pn hwp
    obtain ⟨p, hp, hpn, hppw⟩ := h7 w hw2 pn hwp
    have hne : p.name ≠ m.name := by
      intro hc
      have : p = m := mem_unique_of_nodup hp hm hc h1
      rw [this, hmp] at hppw
      cases hppw
    exact ⟨p, mem_updBy_of_mem hp hne, hpn, hppw⟩
  · intro p hp x hx
    rcases mem_updBy hp with rfl | ⟨hpmem, hpne⟩
    · exact h8 m hm x hx
    · exact h8 p hpmem x hx
  · intro p hp
    rcases mem_updBy hp with rfl | ⟨hpmem, hpne⟩
    · exact h9 m hm
    · exact h9 p hpmem
  · intro p hp wn hpw
    rcases mem_updBy hp with rfl | ⟨hpmem, hpne⟩
    · exact absurd hpw (by rw [show ({ m with
        proposalIndex := m.proposalIndex + 1 } : Proposer).partner
          = m.partner from rfl, hmp]; simp)
    · exact h10 p hpmem wn hpw
  · intro p hp hpw
    rcases mem_updBy hp with rfl | ⟨hpmem, hpne⟩
    · exact absurd (show ({ m with
        proposalIndex := m.proposalIndex + 1 } : Proposer).partner
          = none from hmp) hpw
    · exact h12 p hpmem hpw
  · intro p hp j hj w hw2 hgw
    rcases mem_updBy hp with rfl | ⟨hpmem, hpne⟩
    · by_cases hjc : j < m.proposalIndex
      · rcases h13 m hm j hjc w hw2 hgw with hc | hc | hc
        · rw [hmp] at hc; cases hc
        · exact Or.inr (Or.inl hc)
        · exact Or.inr (Or.inr hc)
      · have hje : j = m.proposalIndex := by
          have : j < m.proposalIndex + 1 := hj
          omega
        subst hje
        rw [hget] at hgw
        have hwname : w.name = n := (Option.some_inj.1 hgw).symm
        have hweq : w = who := mem_unique_of_nodup hw2 hwm (hwname.trans hwn.symm) h2
        rw [hweq]
        rcases hrej with hc | ⟨rs, pt, rp, hrs, hpt, hrp, hle⟩
        · exact Or.inr (Or.inl hc)
        · have hlt : rp < rs := by
            rcases Nat.lt_or_ge rp rs with hx | hx
            · exact hx
            · have hre : rp = rs := Nat.le_antisymm hle hx
              subst hre
              have : pt = m.name := rankOf_inj hrp hrs
              subst this
              obtain ⟨p2, hp2, hp2n, hp2w⟩ := h7 who hwm _ hpt
              have : p2 = m := mem_unique_of_nodup hp2 hm hp2n h1
              rw [this, hmp] at hp2w
              cases hp2w
          exact Or.inr (Or.inr ⟨pt, rp, rs, hpt, hrp, hrs, hlt⟩)
    · exact h13 p hpmem j hj w hw2 hgw
  · intro p hp
    rcases mem_updBy hp with rfl | ⟨hpmem, hpne⟩
    · exact hcur
    · exact h14 p hpmem

theorem nodup_updBy {α : Type} {nm : α → String} {l : List α} {q : α}
    (h : (l.map nm).Nodup) : ((updBy nm l q).map nm).Nodup := by
  rw [updBy_map_nm]
  exact h

theorem inv_accept {s : MatchState} {m0 : String} {rest : List String}
    {m m1 : Proposer} {n : String} {who who1 : Proposee}
    (hI : SInv s) (hu : s.unmatched = m0 :: rest)
    (hf : findBy Proposer.name s.proposers m0 = some m)
    (hnp : m.nextProposal = (some n, m1))
    (hw : findBy Proposee.name s.proposees n = some who)
    (hev : who.evaluateProposal m1.name = some (true, who1))
    (hpt : who1.partner = none ∨ who1.partner = some "") :
    SInv (acceptState s rest m1 who1) := by
  obtain ⟨⟨h1, h2, h3, h4, h5, h6, h7⟩, h8, h9, h10, h11, h12, h13, h14⟩ := hI
  obtain ⟨hm, hmn⟩ := findBy_some hf
  obtain ⟨hwm, hwn⟩ := findBy_some hw
  have hmp : m.partner = none :=
    h5 m hm (by rw [hu, hmn]; exact List.mem_cons_self m0 rest)
  obtain ⟨hget, hm1⟩ := nextProposal_some hnp
  obtain ⟨rs, hrs, hw1, hOr⟩ := evalProposal_true hev
  subst hm1
  subst hw1
  have hwp : who.partner = none := by
    rcases hpt with h | h
    · exact h
    · obtain ⟨p2, hp2, hp2n, hp2w⟩ := h7 who hwm "" h
      exact absurd hp2n (h9 p2 hp2)
  rw [hu] at h3
  have hrachel := List.nodup_cons.1 h3
  have hcur : m.proposalIndex < m.priorities.length := by
    by_contra hc
    rw [List.get?_eq_none.2 (Nat.le_of_not_lt hc)] at hget
    cases hget
  rw [acceptState]
  refine ⟨⟨nodup_updBy h1, nodup_updBy h2, hrachel.2, ?_, ?_, ?_, ?_⟩,
    ?_, ?_, ?_, ?_, ?_, ?_, ?_⟩
  · intro u hu2
    rcases h4 u (by rw [hu]; exact List.mem_cons_of_mem m0 hu2)
      with ⟨p, hp, hpn⟩
    have hne : p.name ≠ m.name := by
      rw [hpn, hmn]
      intro hc
      exact hrachel.1 (hc ▸ hu2)
    exact ⟨p, mem_updBy_of_mem hp hne, hpn⟩
  · intro p hp hpm
    rcases mem_updBy hp with rfl | ⟨hpmem, hpne⟩
    · exact absurd (hmn ▸ hpm) hrachel.1
    · exact h5 p hpmem (by rw [hu]; exact List.mem_cons_of_mem m0 hpm)
  · intro p hp wn hpw
    rcases mem_updBy hp with rfl | ⟨hpmem, hpne⟩
    · have hwn2 : wn = who.name := (Option.some_inj.1 hpw).symm
      subst hwn2
      exact ⟨_, self_mem_updBy hwm rfl, rfl, rfl⟩
    · obtain ⟨w, hwmem, hwname, hwpart⟩ := h6 p hpmem wn hpw
      have hne : w.name ≠ who.name := by
        intro hc
        have : w = who := mem_unique_of_nodup hwmem hwm hc h2
        rw [this, hwp] at hwpart
        cases hwpart
      exact ⟨w, mem_updBy_of_mem hwmem hne, hwname, hwpart⟩
  · intro w hw2 pn hwp2
    rcases mem_updBy hw2 with rfl | ⟨hwmem, hwne⟩
    · have hpn2 : pn = m.name := (Option.some_inj.1 hwp2).symm
      subst hpn2
      exact ⟨_, self_mem_updBy hm rfl, rfl, rfl⟩
    · obtain ⟨p, hpmem, hpname, hppart⟩ := h7 w hwmem pn hwp2
      have hne : p.name ≠ m.name := by
        intro hc
        have : p = m := mem_unique_of_nodup hpmem hm hc h1
        rw [this, hmp] at hppart
        cases hppart
      exact ⟨p, mem_updBy_of_mem hpmem hne, hpname, hppart⟩
  · intro p hp x hx
    rcases mem_updBy hp with rfl | ⟨hpmem, hpne⟩
    · exact exists_name_updBy (h8 m hm x hx)
    · exact exists_name_updBy (h8 p hpmem x hx)
  · intro p hp
    rcases mem_updBy hp with rfl | ⟨hpmem, hpne⟩
    · exact h9 m hm
    · exact h9 p hpmem
  · intro p hp wn hpw
    rcases mem_updBy hp with rfl | ⟨hpmem, hpne⟩
    · have hwn2 : wn = who.name := (Option.some_inj.1 hpw).symm
      subst hwn2
      refine ⟨Nat.le_add_left 1 m.proposalIndex, ?_⟩
      have : m.proposalIndex + 1 - 1 = m.proposalIndex := by omega
      rw [this]
      rw [hget, hwn]
    · exact h10 p hpmem wn hpw
  · intro w hw2 pn hwp2
    rcases mem_updBy hw2 with rfl | ⟨hwmem, hwne⟩
    · have hpn2 : pn = m.name := (Option.some_inj.1 hwp2).symm
      subst hpn2
      exact ⟨rs, hrs, rfl⟩
    · exact h11 w hwmem pn hwp2
  · intro p hp hpw
    rcases mem_updBy hp with rfl | ⟨hpmem, hpne⟩
    · rfl
    · exact h12 p hpmem hpw
  · intro p hp j hj w hw2 hgw
    rcases mem_updBy hp with rfl | ⟨hpmem, hpne⟩
    · rcases mem_updBy hw2 with rfl | ⟨hwmem, hwne⟩
      · exact Or.inl rfl
      · have hjc : j < m.proposalIndex := by
          have hj2 : j < m.proposalIndex + 1 := hj
          rcases Nat.lt_or_ge j m.proposalIndex with hx | hx
          · exact hx
          · have : j = m.proposalIndex := by omega
            subst this
            rw [hget] at hgw
            have : w.name = n := (Option.some_inj.1 hgw).symm
            exact absurd (this.trans hwn.symm) hwne
        rcases h13 m hm j hjc w hwmem hgw with hc | hc | hc
        · rw [hmp] at hc; cases hc
        · exact Or.inr (Or.inl hc)
        · exact Or.inr (Or.inr hc)
    · rcases mem_updBy hw2 with rfl | ⟨hwmem, hwne⟩
      · rcases h13 p hpmem j hj who hwm hgw with hc | hc | hc
        · obtain ⟨w2, hw2mem, hw2name, hw2part⟩ := h6 p hpmem _ hc
          have : w2 = who := mem_unique_of_nodup hw2mem hwm hw2name h2
          rw [this, hwp] at hw2part
          cases hw2part
        · exact Or.inr (Or.inl hc)
        · obtain ⟨pn2, r, r2, hpn2, _, _, _⟩ := hc
          rw [hwp] at hpn2
          cases hpn2
      · exact h13 p hpmem j hj w hwmem hgw
  · intro p hp
    rcases mem_updBy hp with rfl | ⟨hpmem, hpne⟩
    · exact hcur
    · exact h14 p hpmem

theorem inv_dump {s : MatchState} {m0 : String} {rest : List String}
    {m m1 mOld : Proposer} {n pt : String} {who who1 : Proposee}
    (hI : SInv s) (hu : s.unmatched = m0 :: rest)
    (hf : findBy Proposer.name s.proposers m0 = some m)
    (hnp : m.nextProposal = (some n, m1))
    (hw : findBy Proposee.name s.proposees n = some who)
    (hev : who.evaluateProposal m1.name = some (true, who1))
    (hpt : who1.partner = some pt)
    (hfo : findBy Proposer.name s.proposers pt = some mOld) :
    SInv (acceptDumpState s rest m1 who1 mOld) := by
  obtain ⟨⟨h1, h2, h3, h4, h5, h6, h7⟩, h8, h9, h10, h11, h12, h13, h14⟩ := hI
  obtain ⟨hm, hmn⟩ := findBy_some hf
  obtain ⟨hwm, hwn⟩ := findBy_some hw
  obtain ⟨hmold, hmoldnm⟩ := findBy_some hfo
  have hmp : m.partner = none :=
    h5 m hm (by rw [hu, hmn]; exact List.mem_cons_self m0 rest)
  obtain ⟨hget, hm1⟩ := nextProposal_some hnp
  obtain ⟨rs, hrs, hw1, hOr⟩ := evalProposal_true hev
  subst hm1
  subst hw1
  have hptw : who.partner = some pt := hpt
  obtain ⟨rp, hrp, hlt⟩ : ∃ rp, rankOf who.priorities pt = some rp ∧
      rs < rp := by
    rcases hOr with hc | ⟨pt2, rp, hpt2, hrp2, hlt2⟩
    · rw [hptw] at hc; cases hc
    · rw [hptw] at hpt2
      have : pt2 = pt := Option.some_inj.1 hpt2.symm
      subst this
      exact ⟨rp, hrp2, hlt2⟩
  have hmoldp : mOld.partner = some who.name := by
    obtain ⟨p2, hp2, hp2n, hp2w⟩ := h7 who hwm pt hptw
    have : mOld = p2 :=
      mem_unique_of_nodup hmold hp2 (hmoldnm.trans hp2n.symm) h1
    rw [this]
    exact hp2w
  rw [hu] at h3 h4 h5
  have hrachel := List.nodup_cons.1 h3
  have hmold_notun : mOld.name ∉ m0 :: rest := by
    intro hc
    rw [h5 mOld hmold hc] at hmoldp
    cases hmoldp
  have hptm0 : mOld.name ≠ m0 := fun hc =>
    hmold_notun (hc ▸ List.mem_cons_self m0 rest)
  have hptrest : mOld.name ∉ rest := fun hc =>
    hmold_notun (List.mem_cons_of_mem m0 hc)
  have hmoldm : mOld.name ≠ m.name := by rw [hmn]; exact hptm0
  have hcur : m.proposalIndex < m.priorities.length := by
    by_contra hc
    rw [List.get?_eq_none.2 (Nat.le_of_not_lt hc)] at hget
    cases hget
  rw [acceptDumpState]
  refine ⟨⟨nodup_updBy (nodup_updBy h1), nodup_updBy h2, ?_, ?_, ?_, ?_, ?_⟩,
    ?_, ?_, ?_, ?_, ?_, ?_, ?_⟩
  · rw [List.nodup_append]
    refine ⟨hrachel.2, List.nodup_singleton _, ?_⟩
    intro x hx hx2
    rw [List.mem_singleton] at hx2
    exact hptrest (hx2 ▸ hx)
  · intro u hu2
    rcases List.mem_append.1 hu2 with hur | hup
    · obtain ⟨p, hp, hpn⟩ := h4 u (List.mem_cons_of_mem m0 hur)
      have hne1 : p.name ≠ mOld.name := by
        rw [hpn]
        intro hc
        exact hptrest (hc ▸ hur)
      have hne2 : p.name ≠ m.name := by
        rw [hpn, hmn]
        intro hc
        exact hrachel.1 (hc ▸ hur)
      exact ⟨p, mem_updBy_of_mem (mem_updBy_of_mem hp hne1) hne2, hpn⟩
    · rw [List.mem_singleton] at hup
      refine ⟨_, mem_updBy_of_mem (self_mem_updBy hmold rfl) hmoldm, ?_⟩
      rw [hup]
  · intro p hp hpm
    rcases mem_updBy hp with rfl | ⟨hpmem1, hpne1⟩
    · exfalso
      rcases List.mem_append.1 hpm with hur | hup
      · exact hrachel.1 (hmn ▸ hur)
      · rw [List.mem_singleton] at hup
        exact hptm0 (hup.symm.trans hmn)
    · rcases mem_updBy hpmem1 with rfl | ⟨hpmem, hpne⟩
      · rfl
      · rcases List.mem_append.1 hpm with hur | hup
        · exact h5 p hpmem (List.mem_cons_of_mem m0 hur)
        · rw [List.mem_singleton] at hup
          exact absurd hup hpne
  · intro p hp wn hpw
    rcases mem_updBy hp with rfl | ⟨hpmem1, hpne1⟩
    · have hwn2 : wn = who.name := (Option.some_inj.1 hpw).symm
      subst hwn2
      exact ⟨_, self_mem_updBy hwm rfl, rfl, rfl⟩
    · rcases mem_updBy hpmem1 with rfl | ⟨hpmem, hpne⟩
      · cases hpw
      · obtain ⟨w, hwmem, hwname, hwpart⟩ := h6 p hpmem wn hpw
        have hne : w.name ≠ who.name := by
          intro hc
          have : w = who := mem_unique_of_nodup hwmem hwm hc h2
          rw [this, hptw] at hwpart
          have : p.name = pt := (Option.some_inj.1 hwpart.symm)
          exact hpne (this.trans hmoldnm.symm)
        exact ⟨w, mem_updBy_of_mem hwmem hne, hwname, hwpart⟩
  · intro w hw2 pn hwp2
    rcases mem_updBy hw2 with rfl | ⟨hwmem, hwne⟩
    · have hpn2 : pn = m.name := (Option.some_inj.1 hwp2).symm
      subst hpn2
      exact ⟨_, self_mem_updBy (mem_updBy_of_mem hm (hmoldm ∘ Eq.symm)) rfl,
        rfl, rfl⟩
    · obtain ⟨p, hpmem, hpname, hppart⟩ := h7 w hwmem pn hwp2
      have hne1 : p.name ≠ m.name := by
        intro hc
        have : p = m := mem_unique_of_nodup hpmem hm hc h1
        rw [this, hmp] at hppart
        cases hppart
      have hne2 : p.name ≠ mOld.name := by
        intro hc
        have : p = mOld := mem_unique_of_nodup hpmem hmold hc h1
        rw [this, hmoldp] at hppart
        exact hwne (Option.some_inj.1 hppart).symm
      exact ⟨p, mem_updBy_of_mem (mem_updBy_of_mem hpmem hne2) hne1,
        hpname, hppart⟩
  · intro p hp x hx
    rcases mem_updBy hp with rfl | ⟨hpmem1, hpne1⟩
    · exact exists_name_updBy (h8 m hm x hx)
    · rcases mem_updBy hpmem1 with rfl | ⟨hpmem, hpne⟩
      · exact exists_name_updBy (h8 mOld hmold x hx)
      · exact exists_name_updBy (h8 p hpmem x hx)
  · intro p hp
    rcases mem_updBy hp with rfl | ⟨hpmem1, hpne1⟩
    · exact h9 m hm
    · rcases mem_updBy hpmem1 with rfl | ⟨hpmem, hpne⟩
      · exact h9 mOld hmold
      · exact h9 p hpmem
  · intro p hp wn hpw
    rcases mem_updBy hp with rfl | ⟨hpmem1, hpne1⟩
    · have hwn2 : wn = who.name := (Option.some_inj.1 hpw).symm
      subst hwn2
      refine ⟨Nat.le_add_left 1 m.proposalIndex, ?_⟩
      have heq : m.proposalIndex + 1 - 1 = m.proposalIndex := by omega
      rw [heq, hget, hwn]
    · rcases mem_updBy hpmem1 with rfl | ⟨hpmem, hpne⟩
      · cases hpw
      · exact h10 p hpmem wn hpw
  · intro w hw2 pn hwp2
    rcases mem_updBy hw2 with rfl | ⟨hwmem, hwne⟩
    · have hpn2 : pn = m.name := (Option.some_inj.1 hwp2).symm
      subst hpn2
      exact ⟨rs, hrs, rfl⟩
    · exact h11 w hwmem pn hwp2
  · intro p hp hpw
    rcases mem_updBy hp with rfl | ⟨hpmem1, hpne1⟩
    · rfl
    · rcases mem_updBy hpmem1 with rfl | ⟨hpmem, hpne⟩
      · exact absurd rfl hpw
      · exact h12 p hpmem hpw
  · intro p hp j hj w hw2 hgw
    rcases mem_updBy hp with rfl | ⟨hpmem1, hpne1⟩
    · rcases mem_updBy hw2 with rfl | ⟨hwmem, hwne⟩
      · exact Or.inl rfl
      · have hjc : j < m.proposalIndex := by
          rcases Nat.lt_or_ge j m.proposalIndex with hx | hx
          · exact hx
          · have : j = m.proposalIndex := by
              have hj2 : j < m.proposalIndex + 1 := hj
              omega
            subst this
            rw [hget] at hgw
            have : w.name = n := (Option.some_inj.1 hgw).symm
            exact absurd (this.trans hwn.symm) hwne
        rcases h13 m hm j hjc w hwmem hgw with hc | hc | hc
        · rw [hmp] at hc; cases hc
        · exact Or.inr (Or.inl hc)
        · exact Or.inr (Or.inr hc)
    · rcases mem_updBy hpmem1 with rfl | ⟨hpmem, hpne⟩
      · rcases mem_updBy hw2 with rfl | ⟨hwmem, hwne⟩
        · refine Or.inr (Or.inr ⟨_, rs, rp, rfl, hrs, ?_, hlt⟩)
          show rankOf who.priorities mOld.name = some rp
          rw [hmoldnm]
          exact hrp
        · rcases h13 mOld hmold j hj w hwmem hgw with hc | hc | hc
          · rw [hmoldp] at hc
            exact absurd (Option.some_inj.1 hc).symm hwne
          · exact Or.inr (Or.inl hc)
          · exact Or.inr (Or.inr hc)
      · rcases mem_updBy hw2 with rfl | ⟨hwmem, hwne⟩
        · rcases h13 p hpmem j hj who hwm hgw with hc | hc | hc
          · obtain ⟨w2, hw2mem, hw2name, hw2part⟩ := h6 p hpmem _ hc
            have : w2 = who := mem_unique_of_nodup hw2mem hwm hw2name h2
            rw [this, hptw] at hw2part
            exact absurd ((Option.some_inj.1 hw2part).symm.trans hmoldnm.symm)
              hpne
          · exact Or.inr (Or.inl hc)
          · obtain ⟨pn2, r, r2, hpn2, hr, hr2, hlt2⟩ := hc
            rw [hptw] at hpn2
            have : pt = pn2 := Option.some_inj.1 hpn2
            subst this
            have hre : r = rp := by
              rw [hr] at hrp
              exact Option.some_inj.1 hrp
            subst hre
            exact Or.inr (Or.inr ⟨_, rs, r2, rfl, hrs, hr2,
              Nat.lt_trans hlt hlt2⟩)
        · exact h13 p hpmem j hj w hwmem hgw
  · intro p hp
    rcases mem_updBy hp with rfl | ⟨hpmem1, hpne1⟩
    · exact hcur
    · rcases mem_updBy hpmem1 with rfl | ⟨hpmem, hpne⟩
      · exact h14 mOld hmold
      · exact h14 p hpmem

theorem evalProposal_none {w : Proposee} {sid : String}
    (h : w.evaluateProposal sid = none) :
    ∃ rs pt, rankOf w.priorities sid = some rs ∧ w.partner = some pt ∧
      rankOf w.priorities pt = none := by
  cases hs : rankOf w.priorities sid with
  | none => simp only [Proposee.evaluateProposal, hs] at h; cases h
  | some rs =>
    cases hp : w.partner with
    | none => simp only [Proposee.evaluateProposal, hs, hp] at h; cases h
    | some pt =>
      cases hr : rankOf w.priorities pt with
      | none => exact ⟨rs, pt, rfl, rfl, hr⟩
      | some rp =>
        simp only [Proposee.evaluateProposal, hs, hp, hr] at h
        by_cases hlt : rs < rp
        · rw [if_pos hlt] at h; cases h
        · rw [if_neg hlt] at h; cases h

/-- The full invariant is preserved by every completed iteration of the
stable loop. -/
theorem sinv_step {s s' : MatchState} (hI : SInv s)
    (h : stableStep s = StepOut.cont s') : SInv s' := by
  obtain ⟨m0, rest, m, hu, hf, hcase⟩ := stableStep_cont h
  rcases hcase with ⟨mx, hnp, rfl⟩ | ⟨n, m1, who, hnp, hw, hcase2⟩
  · exact inv_exhaust hI hu
  · rcases hcase2 with ⟨who1, hev, rfl⟩ | ⟨who1, hev, hpt, rfl⟩ |
      ⟨who1, pt, mOld, hev, hpt, hne, hfo, rfl⟩
    · exact inv_reject hI hu hf hnp hw hev
    · exact inv_accept hI hu hf hnp hw hev hpt
    · exact inv_dump hI hu hf hnp hw hev hpt hfo

/-- Under the invariant the stable loop never raises: every `dict`
lookup the body performs succeeds. -/
theorem sinv_no_fail {s : MatchState} (hI : SInv s) :
    stableStep s ≠ StepOut.fail := by
  intro h
  obtain ⟨⟨h1, h2, h3, h4, h5, h6, h7⟩, h8, h9, h10, h11, h12, h13, h14⟩ := hI
  obtain ⟨m0, rest, hu, hcase⟩ := stableStep_fail h
  rcases hcase with hfn | ⟨m, hf, n, m1, hnp, hcase2⟩
  · obtain ⟨p, hp, hpn⟩ := h4 m0 (by rw [hu]; exact List.mem_cons_self m0 rest)
    exact findBy_eq_none hfn p hp hpn
  · obtain ⟨hget, hm1⟩ := nextProposal_some hnp
    obtain ⟨hm, hmn⟩ := findBy_some hf
    rcases hcase2 with hwn | ⟨who, hw, hcase3⟩
    · obtain ⟨w, hwmem, hwname⟩ := h8 m hm n (List.get?_mem hget)
      exact findBy_eq_none hwn w hwmem hwname
    · rcases hcase3 with hevn | ⟨who1, pt, hev, hpt, hne, hfo⟩
      · obtain ⟨rs, pt, hrs, hptw, hrn⟩ := evalProposal_none hevn
        obtain ⟨hwmem, hwname⟩ := findBy_some hw
        obtain ⟨r, hr, _⟩ := h11 who hwmem pt hptw
        rw [hr] at hrn
        cases hrn
      · have hptw : who.partner = some pt :=
          (evalProposal_partner_eq hev).1 ▸ hpt
        obtain ⟨hwmem, hwname⟩ := findBy_some hw
        obtain ⟨p, hp, hpn, _⟩ := h7 who hwmem pt hptw
        exact findBy_eq_none hfo p hp hpn

theorem invG_reject {s : MatchState} {m0 : String} {rest : List String}
    {m m1 : Proposer} {who : Proposee}
    (hI : InvG s) (hu : s.unmatched = m0 :: rest)
    (hf : findBy Proposer.name s.proposers m0 = some m)
    (hm1p : m1.partner = m.partner) (hm1n : m1.name = m.name)
    (hwm : who ∈ s.proposees) :
    InvG { s with proposers := updBy Proposer.name s.proposers m1,
                  proposees := updBy Proposee.name s.proposees who } := by
  obtain ⟨h1, h2, h3, h4, h5, h6, h7⟩ := hI
  obtain ⟨hm, hmn⟩ := findBy_some hf
  have hmp : m.partner = none :=
    h5 m hm (by rw [hu, hmn]; exact List.mem_cons_self m0 rest)
  rw [updBy_self_eq hwm h2]
  refine ⟨nodup_updBy h1, h2, h3, ?_, ?_, ?_, ?_⟩
  · intro u hu2
    rcases h4 u hu2 with ⟨p, hp, hpn⟩
    by_cases hc : p.name = m1.name
    · exact ⟨m1, self_mem_updBy hm hm1n.symm, by
        rw [← hc, hpn]⟩
    · exact ⟨p, mem_updBy_of_mem hp hc, hpn⟩
  · intro p hp hpm
    rcases mem_updBy hp with rfl | ⟨hpmem, hpne⟩
    · rw [hm1p]; exact hmp
    · exact h5 p hpmem hpm
  · intro p hp wn hpw
    rcases mem_updBy hp with rfl | ⟨hpmem, hpne⟩
    · rw [hm1p, hmp] at hpw; cases hpw
    · exact h6 p hpmem wn hpw
  · intro w hw2 pn hwp
    obtain ⟨p, hp, hpn, hppw⟩ := h7 w hw2 pn hwp
    have hne : p.name ≠ m1.name := by
      rw [hm1n]
      intro hc
      have : p = m := mem_unique_of_nodup hp hm hc h1
      rw [this, hmp] at hppw
      cases hppw
    refine ⟨p, mem_updBy_of_mem hp hne, hpn, hppw⟩

theorem invG_accept {s : MatchState} {m0 : String} {rest : List String}
    {m m1 : Proposer} {n : String} {who who1 : Proposee}
    (hI : InvG s) (hu : s.unmatched = m0 :: rest)
    (hf : findBy Proposer.name s.proposers m0 = some m)
    (hnp : m.nextProposal = (some n, m1))
    (hw : findBy Proposee.name s.proposees n = some who)
    (hwp : who.partner = none)
    (hw1name : who1.name = who.name) :
    InvG (acceptState s rest m1 who1) := by
  obtain ⟨h1, h2, h3, h4, h5, h6, h7⟩ := hI
  obtain ⟨hm, hmn⟩ := findBy_some hf
  obtain ⟨hwm, hwn⟩ := findBy_some hw
  obtain ⟨hget, hm1⟩ := nextProposal_some hnp
  subst hm1
  rw [hu] at h3 h4 h5
  have hrachel := List.nodup_cons.1 h3
  rw [acceptState]
  refine ⟨nodup_updBy h1, nodup_updBy h2, hrachel.2, ?_, ?_, ?_, ?_⟩
  · intro u hu2
    rcases h4 u (List.mem_cons_of_mem m0 hu2) with ⟨p, hp, hpn⟩
    have hne : p.name ≠ m.name := by
      rw [hpn, hmn]
      intro hc
      exact hrachel.1 (hc ▸ hu2)
    exact ⟨p, mem_updBy_of_mem hp hne, hpn⟩
  · intro p hp hpm
    rcases mem_updBy hp with rfl | ⟨hpmem, hpne⟩
    · exact absurd (hmn ▸ hpm) hrachel.1
    · exact h5 p hpmem (List.mem_cons_of_mem m0 hpm)
  · intro p hp wn hpw
    rcases mem_updBy hp with rfl | ⟨hpmem, hpne⟩
    · have hwn2 : wn = who1.name := (Option.some_inj.1 hpw).symm
      subst hwn2
      exact ⟨_, self_mem_updBy hwm hw1name.symm, rfl, rfl⟩
    · obtain ⟨w, hwmem, hwname, hwpart⟩ := h6 p hpmem wn hpw
      have hne : w.name ≠ who1.name := by
        rw [hw1name]
        intro hc
        have : w = who := mem_unique_of_nodup hwmem hwm hc h2
        rw [this, hwp] at hwpart
        cases hwpart
      exact ⟨w, mem_updBy_of_mem hwmem hne, hwname, hwpart⟩
  · intro w hw2 pn hwp2
    rcases mem_updBy hw2 with rfl | ⟨hwmem, hwne⟩
    · have hpn2 : pn = m.name := (Option.some_inj.1 hwp2).symm
      subst hpn2
      exact ⟨_, self_mem_updBy hm rfl, rfl, rfl⟩
    · obtain ⟨p, hpmem, hpname, hppart⟩ := h7 w hwmem pn hwp2
      have hmp : m.partner = none :=
        h5 m hm (hmn ▸ List.mem_cons_self m0 rest)
      have hne : p.name ≠ m.name := by
        intro hc
        have : p = m := mem_unique_of_nodup hpmem hm hc h1
        rw [this, hmp] at hppart
        cases hppart
      exact ⟨p, mem_updBy_of_mem hpmem hne, hpname, hppart⟩

/-- The shared invariant is preserved by every completed iteration of
the greedy loop. -/
theorem invG_step {s s' : MatchState} (hI : InvG s)
    (h : greedyStep s = StepOut.cont s') : InvG s' := by
  obtain ⟨m0, rest, m, hu, hf, hcase⟩ := greedyStep_cont h
  rcases hcase with ⟨mx, hnp, rfl⟩ | ⟨n, m1, who, hnp, hw, hcase2⟩
  · exact invG_exhaust hI hu
  · rcases hcase2 with ⟨who1, hev, hwho1, rfl⟩ | ⟨who1, hev, hwp, hw1p, rfl⟩
    · subst hwho1
      obtain ⟨hget, hm1⟩ := nextProposal_some hnp
      subst hm1
      exact invG_reject hI hu hf rfl rfl (findBy_some hw).1
    · obtain ⟨rs, hrs, hwp2, hw1⟩ := evalGreedy_true hev
      subst hw1
      exact invG_accept hI hu hf hnp hw hwp2 rfl

theorem stableStep_of_nil {s : MatchState} (h : s.unmatched = []) :
    stableStep s = StepOut.halt := by
  simp [stableStep, h]

theorem stableStep_halt {s : MatchState} (h : stableStep s = StepOut.halt) :
    s.unmatched = [] := by
  cases hu : s.unmatched with
  | nil => rfl
  | cons m0 rest =>
    exfalso
    simp only [stableStep, hu] at h
    split at h
    · cases h
    · split at h
      · cases h
      · split at h
        · cases h
        · split at h
          · cases h
          · split at h
            · split at h
              · split at h
                · cases h
                · split at h
                  · cases h
                  · cases h
              · cases h
            · cases h

theorem greedyStep_halt {s : MatchState} (h : greedyStep s = StepOut.halt) :
    s.unmatched = [] := by
  cases hu : s.unmatched with
  | nil => rfl
  | cons m0 rest =>
    exfalso
    simp only [greedyStep, hu] at h
    split at h
    · cases h
    · split at h
      · cases h
      · split at h
        · cases h
        · split at h
          · split at h
            · split at h
              · cases h
              · split at h
                · cases h
                · cases h
            · cases h
          · cases h

/-! ### Termination measure and totality of the stable loop -/

/-- Remaining work of a proposer list: candidates not yet tried. -/
def measureP (ps : List Proposer) : Nat :=
  (ps.map (fun p => p.priorities.length - p.proposalIndex)).sum

/-- Loop variant: remaining candidates plus the unmatched queue. -/
def measureS (s : MatchState) : Nat :=
  measureP s.proposers + s.unmatched.length

theorem measure_decrease {s s' : MatchState} (hI : SInv s)
    (h : stableStep s = StepOut.cont s') : measureS s' < measureS s := by
  obtain ⟨m0, rest, m, hu, hf, hcase⟩ := stableStep_cont h
  obtain ⟨hm, hmn⟩ := findBy_some hf
  have h1 := hI.toInvG.nodupP
  rcases hcase with ⟨mx, hnp, hs'⟩ | ⟨n, m1, who, hnp, hw, hcase2⟩
  · rw [hs']
    simp only [measureS, measureP, hu]
    simp
  · obtain ⟨hget, hm1⟩ := nextProposal_some hnp
    have hcur : m.proposalIndex < m.priorities.length := by
      by_contra hc
      rw [List.get?_eq_none.2 (Nat.le_of_not_lt hc)] at hget
      cases hget
    have hm1n : m.name = m1.name := by rw [hm1]
    rcases hcase2 with ⟨who1, hev, hs'⟩ | ⟨who1, hev, hpt, hs'⟩ |
      ⟨who1, pt, mOld, hev, hpt, hne, hfo, hs'⟩
    · rw [hs']
      have hsum := sum_map_updBy m1
        (fun p => p.priorities.length - p.proposalIndex) hm hm1n h1
      simp only [] at hsum
      have hf1 : m1.priorities = m.priorities := by rw [hm1]
      have hf2 : m1.proposalIndex = m.proposalIndex + 1 := by rw [hm1]
      rw [hf1, hf2] at hsum
      simp only [measureS, measureP, hu] at hsum ⊢
      simp only [List.length_cons]
      omega
    · rw [hs']
      obtain ⟨q2, hq2⟩ : ∃ q2 : Proposer, q2 = { m1 with
          partner := some who1.name, rank := some m1.proposalIndex } :=
        ⟨_, rfl⟩
      rw [acceptState, ← hq2]
      have hqn : m.name = q2.name := by rw [hq2, hm1]
      have hsum := sum_map_updBy q2
        (fun p => p.priorities.length - p.proposalIndex) hm hqn h1
      simp only [] at hsum
      have hf1 : q2.priorities = m.priorities := by rw [hq2, hm1]
      have hf2 : q2.proposalIndex = m.proposalIndex + 1 := by rw [hq2, hm1]
      rw [hf1, hf2] at hsum
      simp only [measureS, measureP, hu] at hsum ⊢
      simp only [List.length_cons]
      omega
    · rw [hs']
      obtain ⟨hmold, hmoldnm⟩ := findBy_some hfo
      have hptw : who.partner = some pt :=
        (evalProposal_partner_eq hev).1 ▸ hpt
      obtain ⟨hwm, hwn⟩ := findBy_some hw
      obtain ⟨p2, hp2, hp2n, hp2w⟩ := hI.toInvG.symWP who hwm pt hptw
      have hmoldeq : mOld = p2 :=
        mem_unique_of_nodup hmold hp2 (hmoldnm.trans hp2n.symm) h1
      have hmp : m.partner = none := by
        refine hI.toInvG.unmFree m hm ?_
        rw [hu, hmn]
        exact List.mem_cons_self m0 rest
      have hmoldm : mOld.name ≠ m.name := by
        intro hc
        have h5x : mOld = m := mem_unique_of_nodup hmold hm hc h1
        rw [hmoldeq] at h5x
        rw [h5x, hmp] at hp2w
        cases hp2w
      obtain ⟨q3, hq3⟩ : ∃ q3 : Proposer, q3 = { mOld with
          partner := none, rank := some 0 } := ⟨_, rfl⟩
      obtain ⟨q2, hq2⟩ : ∃ q2 : Proposer, q2 = { m1 with
          partner := some who1.name, rank := some m1.proposalIndex } :=
        ⟨_, rfl⟩
      rw [acceptDumpState, ← hq3, ← hq2]
      have hsum1 := sum_map_updBy q3
        (fun p => p.priorities.length - p.proposalIndex) hmold
        (show mOld.name = q3.name by rw [hq3]) h1
      have hmem2 : m ∈ updBy Proposer.name s.proposers q3 :=
        mem_updBy_of_mem hm (by
          rw [hq3]
          exact fun hc => hmoldm hc.symm)
      have hsum2 := sum_map_updBy q2
        (fun p => p.priorities.length - p.proposalIndex) hmem2
        (show m.name = q2.name by rw [hq2, hm1])
        (nodup_updBy h1)
      simp only [] at hsum1 hsum2
      have hf1 : q2.priorities = m.priorities := by rw [hq2, hm1]
      have hf2 : q2.proposalIndex = m.proposalIndex + 1 := by rw [hq2, hm1]
      have hf3 : q3.priorities = mOld.priorities := by rw [hq3]
      have hf4 : q3.proposalIndex = mOld.proposalIndex := by rw [hq3]
      rw [hf1, hf2] at hsum2
      rw [hf3, hf4] at hsum1
      simp only [measureS, measureP, hu] at hsum1 hsum2 ⊢
      simp only [List.length_cons, List.length_append,
        List.length_singleton, List.length_nil]
      have hsub : m.priorities.length - (m.proposalIndex + 1) + 1
          = m.priorities.length - m.proposalIndex := by omega
      omega

theorem runStable_mono {f g : Nat} {s : MatchState} {t : MatchState}
    (h : runStable f s = RunResult.finished t) (hle : f ≤ g) :
    runStable g s = RunResult.finished t := by
  induction f generalizing g s with
  | zero =>
    cases hst : stableStep s with
    | halt =>
      simp only [runStable, hst] at h
      cases g with
      | zero => simp only [runStable, hst]; exact h
      | succ g0 => simp only [runStable, hst]; exact h
    | fail => simp only [runStable, hst] at h; cases h
    | cont s2 => simp only [runStable, hst] at h; cases h
  | succ f0 ih =>
    cases hst : stableStep s with
    | halt =>
      simp only [runStable, hst] at h
      cases g with
      | zero => simp only [runStable, hst]; exact h
      | succ g0 => simp only [runStable, hst]; exact h
    | fail => simp only [runStable, hst] at h; cases h
    | cont s2 =>
      simp only [runStable, hst] at h
      cases g with
      | zero => exact absurd hle (by omega)
      | succ g0 =>
        simp only [runStable, hst]
        exact ih h (by omega)

theorem run_total_aux : ∀ N : Nat, ∀ s : MatchState, measureS s ≤ N →
    SInv s → ∃ t, runStable N s = RunResult.finished t ∧ SInv t ∧
      t.unmatched = [] := by
  intro N
  induction N with
  | zero =>
    intro s hle hI
    have hnil : s.unmatched = [] := by
      have : s.unmatched.length = 0 := by
        simp only [measureS] at hle
        omega
      exact List.length_eq_zero.1 this
    refine ⟨s, ?_, hI, hnil⟩
    simp only [runStable, stableStep_of_nil hnil]
  | succ N0 ih =>
    intro s hle hI
    cases hst : stableStep s with
    | halt =>
      refine ⟨s, ?_, hI, stableStep_halt hst⟩
      simp only [runStable, hst]
    | fail => exact absurd hst (sinv_no_fail hI)
    | cont s2 =>
      have hdec := measure_decrease hI hst
      obtain ⟨t, hrun, hIt, hnil⟩ := ih s2 (by omega) (sinv_step hI hst)
      exact ⟨t, by simp only [runStable, hst]; exact hrun, hIt, hnil⟩

/-- With fuel `measureS s`, the stable loop terminates normally from
any state satisfying the invariant. -/
theorem runStable_total {s : MatchState} (hI : SInv s) :
    ∃ t, runStable (measureS s) s = RunResult.finished t ∧ SInv t ∧
      t.unmatched = [] :=
  run_total_aux (measureS s) s (Nat.le_refl _) hI

theorem stepsFrom_sinv {k : Nat} {s t : MatchState} (hI : SInv s)
    (h : stepsFrom stableStep k s = some t) : SInv t := by
  induction k generalizing s with
  | zero =>
    simp only [stepsFrom] at h
    cases h
    exact hI
  | succ k0 ih =>
    simp only [stepsFrom] at h
    cases hst : stableStep s with
    | halt => rw [hst] at h; cases h
    | fail => rw [hst] at h; cases h
    | cont s2 =>
      rw [hst] at h
      exact ih (sinv_step hI hst) h

theorem stepsFrom_invG {k : Nat} {s t : MatchState} (hI : InvG s)
    (h : stepsFrom greedyStep k s = some t) : InvG t := by
  induction k generalizing s with
  | zero =>
    simp only [stepsFrom] at h
    cases h
    exact hI
  | succ k0 ih =>
    simp only [stepsFrom] at h
    cases hst : greedyStep s with
    | halt => rw [hst] at h; cases h
    | fail => rw [hst] at h; cases h
    | cont s2 =>
      rw [hst] at h
      exact ih (invG_step hI hst) h

theorem runStable_sinv {f : Nat} {s t : MatchState} (hI : SInv s)
    (h : runStable f s = RunResult.finished t) :
    SInv t ∧ t.unmatched = [] := by
  induction f generalizing s with
  | zero =>
    cases hst : stableStep s with
    | halt =>
      simp only [runStable, hst] at h
      cases h
      exact ⟨hI, stableStep_halt hst⟩
    | fail => simp only [runStable, hst] at h; cases h
    | cont s2 => simp only [runStable, hst] at h; cases h
  | succ f0 ih =>
    cases hst : stableStep s with
    | halt =>
      simp only [runStable, hst] at h
      cases h
      exact ⟨hI, stableStep_halt hst⟩
    | fail => simp only [runStable, hst] at h; cases h
    | cont s2 =>
      simp only [runStable, hst] at h
      exact ih (sinv_step hI hst) h

/-! ### Stability of the final matching -/

/-- Preference order: `a` strictly precedes `b` in the preference list `l`
(first occurrences compared). -/
def PrefersOver (l : List String) (a b : String) : Prop :=
  ∃ i j, firstIdx l a = some i ∧ firstIdx l b = some j ∧ i < j

/-- Proposee `w` would destabilize with the proposer named `pn`:
it finds `pn` acceptable and is either unpartnered or ranks `pn`
strictly better (lower dict rank) than its current partner. -/
def BlocksWith (w : Proposee) (pn : String) : Prop :=
  (∃ r, rankOf w.priorities pn = some r) ∧
    (w.partner = none ∨
      ∃ pn2 r r2, w.partner = some pn2 ∧ rankOf w.priorities pn = some r ∧
        rankOf w.priorities pn2 = some r2 ∧ r < r2)

theorem sinv_no_blocking {s : MatchState} (hI : SInv s)
    {p : Proposer} (hp : p ∈ s.proposers) {q : String}
    (hq : p.partner = some q) {w : Proposee} (hw : w ∈ s.proposees)
    (hpref : PrefersOver p.priorities w.name q) : ¬ BlocksWith w p.name := by
  obtain ⟨i, j, hiw, hjq, hij⟩ := hpref
  obtain ⟨hc1, hcq⟩ := hI.matchedHist p hp q hq
  obtain ⟨j2, hj2, hj2le⟩ := firstIdx_le_of_get hcq
  have hjj : j = j2 := by
    rw [hjq] at hj2
    exact Option.some_inj.1 hj2
  have hic : i < p.proposalIndex := by omega
  have hgw : p.priorities.get? i = some w.name := firstIdx_get hiw
  rintro ⟨⟨r0, hr0⟩, hblock⟩
  rcases hI.rejected p hp i hic w hw hgw with hc | hc | hc
  · rw [hq] at hc
    have : w.name = q := Option.some_inj.1 hc.symm
    rw [this, hjq] at hiw
    have : j = i := Option.some_inj.1 hiw
    omega
  · rw [hc] at hr0
    cases hr0
  · obtain ⟨pn, r, r2, hwp, hr, hr2, hlt⟩ := hc
    rcases hblock with hnone | ⟨pn2, rr, rr2, hwp2, hrr, hrr2, hlt2⟩
    · rw [hnone] at hwp
      cases hwp
    · rw [hwp] at hwp2
      have hpe : pn = pn2 := Option.some_inj.1 hwp2
      subst hpe
      rw [hr2] at hrr
      rw [hr] at hrr2
      have he1 : r2 = rr := Option.some_inj.1 hrr
      have he2 : r = rr2 := Option.some_inj.1 hrr2
      omega

/-! ### Initial states -/

/-- Decidable well-formedness of a freshly built state: distinct names
on both sides, `unmatched` listing exactly the proposer names, all
agents fresh (no partner, no rank, cursor 0), nonempty proposer names,
and every preference entry naming an existing proposee. -/
def checkInit (s : MatchState) : Bool :=
  decide ((s.proposers.map Proposer.name).Nodup) &&
  decide ((s.proposees.map Proposee.name).Nodup) &&
  (s.unmatched == s.proposers.map Proposer.name) &&
  s.proposers.all (fun p => (p.partner == none) && (p.rank == none) &&
    (p.proposalIndex == 0) && (!(p.name == "")) &&
    p.priorities.all (fun x => s.proposees.any (fun w => w.name == x))) &&
  s.proposees.all (fun w => (w.partner == none) && (w.rank == none))

theorem checkInit_sinv {s : MatchState} (h : checkInit s = true) :
    SInv s := by
  rw [checkInit] at h
  simp only [Bool.and_eq_true, decide_eq_true_eq, List.all_eq_true,
    beq_iff_eq, Bool.not_eq_true', beq_eq_false_iff_ne, ne_eq,
    List.any_eq_true] at h
  obtain ⟨⟨⟨⟨h1, h2⟩, h3⟩, h4⟩, h5⟩ := h
  have hpfresh : ∀ p ∈ s.proposers, p.partner = none ∧ p.rank = none ∧
      p.proposalIndex = 0 ∧ p.name ≠ "" ∧
      ∀ x ∈ p.priorities, ∃ w ∈ s.proposees, w.name = x := by
    intro p hp
    obtain ⟨⟨⟨⟨hx1, hx2⟩, hx3⟩, hx4⟩, hx5⟩ := h4 p hp
    exact ⟨hx1, hx2, hx3, hx4, fun x hx => by
      obtain ⟨w, hw, hwx⟩ := hx5 x hx
      exact ⟨w, hw, hwx⟩⟩
  refine ⟨⟨h1, h2, ?_, ?_, ?_, ?_, ?_⟩, ?_, ?_, ?_, ?_, ?_, ?_, ?_⟩
  · rw [h3]
    exact h1
  · intro u hu
    rw [h3] at hu
    obtain ⟨p, hp, hpn⟩ := List.mem_map.1 hu
    exact ⟨p, hp, hpn⟩
  · intro p hp _
    exact (hpfresh p hp).1
  · intro p hp wn hpw
    rw [(hpfresh p hp).1] at hpw
    cases hpw
  · intro w hw pn hwp
    rw [(h5 w hw).1] at hwp
    cases hwp
  · intro p hp x hx
    exact (hpfresh p hp).2.2.2.2 x hx
  · intro p hp
    exact (hpfresh p hp).2.2.2.1
  · intro p hp wn hpw
    rw [(hpfresh p hp).1] at hpw
    cases hpw
  · intro w hw pn hwp
    rw [(h5 w hw).1] at hwp
    cases hwp
  · intro p hp hpw
    exact absurd (hpfresh p hp).1 hpw
  · intro p hp j hj w hw hgw
    rw [(hpfresh p hp).2.2.1] at hj
    exact absurd hj (Nat.not_lt_zero j)
  · intro p hp
    rw [(hpfresh p hp).2.2.1]
    exact Nat.zero_le _

/-! ### Concrete runs used as witnesses -/

/-- Spec scenario: proposers `A:[X]`, `B:[X,Y]`; proposees `X:[B,A]`,
`Y:[B]`. -/
def ex1Init : MatchState :=
  mkState [("A", ["X"]), ("B", ["X", "Y"])] [("X", ["B", "A"]), ("Y", ["B"])]

def ex1Mid1 : MatchState :=
  ⟨[⟨"A", ["X"], some "X", some 1, 1⟩, ⟨"B", ["X", "Y"], none, none, 0⟩],
    [⟨"X", ["B", "A"], some "A", some 2⟩, ⟨"Y", ["B"], none, none⟩], ["B"]⟩

def ex1Mid2 : MatchState :=
  ⟨[⟨"A", ["X"], none, some 0, 1⟩, ⟨"B", ["X", "Y"], some "X", some 1, 1⟩],
    [⟨"X", ["B", "A"], some "B", some 1⟩, ⟨"Y", ["B"], none, none⟩], ["A"]⟩

def ex1Final : MatchState :=
  ⟨[⟨"A", ["X"], none, some 0, 1⟩, ⟨"B", ["X", "Y"], some "X", some 1, 1⟩],
    [⟨"X", ["B", "A"], some "B", some 1⟩, ⟨"Y", ["B"], none, none⟩], []⟩

/-- A proposer lists `Z`, which names no proposee. -/
def c2Init : MatchState := mkState [("A", ["Z"])] [("X", ["A"])]

/-- Proposee `X` finds `B` unacceptable, so `B` needs a rejection and an
exhaustion iteration beyond the preference-list total. -/
def c4Init : MatchState := mkState [("A", ["X"]), ("B", ["X"])] [("X", ["A"])]

def c4Final : MatchState :=
  ⟨[⟨"A", ["X"], some "X", some 1, 1⟩, ⟨"B", ["X"], none, none, 1⟩],
    [⟨"X", ["A"], some "A", some 1⟩], []⟩

/-- Run in which `A` is accepted by `X` and later dumped when `B` proposes. -/
def c9Init : MatchState := mkState [("A", ["X"]), ("B", ["X"])] [("X", ["B", "A"])]

def c9Mid1 : MatchState :=
  ⟨[⟨"A", ["X"], some "X", some 1, 1⟩, ⟨"B", ["X"], none, none, 0⟩],
    [⟨"X", ["B", "A"], some "A", some 2⟩], ["B"]⟩

def c9Mid2 : MatchState :=
  ⟨[⟨"A", ["X"], none, some 0, 1⟩, ⟨"B", ["X"], some "X", some 1, 1⟩],
    [⟨"X", ["B", "A"], some "B", some 1⟩], ["A"]⟩

/-- Greedy run on the spec scenario: `X` keeps first-comer `A` even
though it prefers `B`. -/
def gInit : MatchState :=
  mkState [("A", ["X"]), ("B", ["X", "Y"])] [("X", ["B", "A"]), ("Y", ["B"])]

def gMid1 : MatchState :=
  ⟨[⟨"A", ["X"], some "X", some 1, 1⟩, ⟨"B", ["X", "Y"], none, none, 0⟩],
    [⟨"X", ["B", "A"], some "A", some 2⟩, ⟨"Y", ["B"], none, none⟩], ["B"]⟩

def gFinal : MatchState :=
  ⟨[⟨"A", ["X"], some "X", some 1, 1⟩, ⟨"B", ["X", "Y"], some "Y", some 2, 2⟩],
    [⟨"X", ["B", "A"], some "A", some 2⟩, ⟨"Y", ["B"], some "B", some 1⟩], []⟩

/-! ### Claim theorems -/

/-- C1: In stable mode (`doMatch`), the final matching is stable: for
every matched proposer `p` with partner `q`, there is no proposee `w`
that `p` ranks strictly better than `q` and that ranks `p` strictly
better than its own final partner (an unmatched `w` preferring any
acceptable suitor). -/
theorem doMatch_final_matching_stable (f : Nat) (s t : MatchState)
    (hI : SInv s) (hrun : runStable f s = RunResult.finished t) :
    ∀ p ∈ t.proposers, ∀ q, p.partner = some q →
      ∀ w ∈ t.proposees, PrefersOver p.priorities w.name q →
        ¬ BlocksWith w p.name := by
  obtain ⟨hIt, _⟩ := runStable_sinv hI hrun
  intro p hp q hq w hw hpref
  exact sinv_no_blocking hIt hp hq hw hpref

def c1Init : MatchState :=
  mkState [("A", ["X", "Y"]), ("B", ["X"])] [("X", ["B", "A"]), ("Y", ["A"])]

def c1Final : MatchState :=
  ⟨[⟨"A", ["X", "Y"], some "Y", some 2, 2⟩, ⟨"B", ["X"], some "X", some 1, 1⟩],
    [⟨"X", ["B", "A"], some "B", some 1⟩, ⟨"Y", ["A"], some "A", some 1⟩], []⟩

theorem doMatch_final_matching_stable_witness :
    ¬ BlocksWith ⟨"X", ["B", "A"], some "B", some 1⟩
      (⟨"A", ["X", "Y"], some "Y", some 2, 2⟩ : Proposer).name :=
  doMatch_final_matching_stable 3 c1Init c1Final
    (checkInit_sinv (by decide)) (by decide)
    ⟨"A", ["X", "Y"], some "Y", some 2, 2⟩ (by decide) "Y" (by decide)
    ⟨"X", ["B", "A"], some "B", some 1⟩ (by decide)
    ⟨0, 1, by decide, by decide, by decide⟩

/-- C2 counterexample: on an input whose proposer lists the unknown
identifier `Z`, the stable engine raises (`proposees[n]` is a
`KeyError`), it does not complete with a final pairing. -/
theorem doMatch_unknown_proposee_id_raises :
    runStable 1 c2Init = RunResult.failed ∧
      (∃ p ∈ c2Init.proposers, "Z" ∈ p.priorities) ∧
      (∀ w ∈ c2Init.proposees, w.name ≠ "Z") := by decide

/-- C2 amended: an unknown identifier is tolerated only on the suitor
side — a suitor absent from the proposee's rank lookup is rejected
without error — while a proposee identifier in a proposer's preference
list that names no proposee makes the engine raise (`fail`), aborting
the run. -/
theorem unknown_id_amended :
    (∀ (w : Proposee) (sid : String), rankOf w.priorities sid = none →
      w.evaluateProposal sid = some (false, w)) ∧
    (∀ (s : MatchState) (m0 : String) (rest : List String) (m : Proposer)
      (n : String) (m1 : Proposer), s.unmatched = m0 :: rest →
      findBy Proposer.name s.proposers m0 = some m →
      m.nextProposal = (some n, m1) →
      findBy Proposee.name s.proposees n = none →
      stableStep s = StepOut.fail) := by
  constructor
  · intro w sid h
    simp only [Proposee.evaluateProposal, h]
  · intro s m0 rest m n m1 hu hf hnp hw
    simp only [stableStep, hu, hf, hnp, hw]

theorem unknown_id_amended_witness :
    (⟨"X", ["A"], none, none⟩ : Proposee).evaluateProposal "Z"
        = some (false, ⟨"X", ["A"], none, none⟩) ∧
      stableStep c2Init = StepOut.fail :=
  ⟨unknown_id_amended.1 ⟨"X", ["A"], none, none⟩ "Z" (by decide),
    unknown_id_amended.2 c2Init "A" [] ⟨"A", ["Z"], none, none, 0⟩ "Z"
      ⟨"A", ["Z"], none, none, 1⟩ (by decide) (by decide) (by decide)
      (by decide)⟩

/-- C3 counterexample: calling `nextProposal` on an exhausted proposer
returns the sentinel with the cursor NOT advanced — refuting "the
cursor advances exactly once per call" in the exhausted case. -/
theorem nextProposal_exhausted_cursor_unchanged :
    Proposer.nextProposal ⟨"A", [], none, none, 0⟩
        = (none, ⟨"A", [], none, none, 0⟩) ∧
      ¬ (Proposer.nextProposal ⟨"A", [], none, none, 0⟩).2.proposalIndex
          = 0 + 1 := by decide

/-- C3 amended: `nextProposal` returns the next unvisited identifier
and advances the cursor exactly once when the cursor is below the list
length; once the cursor has reached the list length it returns the
sentinel `none` and leaves the cursor (and the whole proposer)
unchanged. -/
theorem nextProposal_spec (p : Proposer) :
    (p.proposalIndex < p.priorities.length →
      p.nextProposal = (p.priorities.get? p.proposalIndex,
        { p with proposalIndex := p.proposalIndex + 1 })) ∧
    (p.priorities.length ≤ p.proposalIndex →
      p.nextProposal = (none, p)) := by
  constructor
  · intro h
    cases hg : p.priorities.get? p.proposalIndex with
    | none =>
      rw [List.get?_eq_none] at hg
      omega
    | some g => simp only [Proposer.nextProposal, hg]
  · intro h
    simp only [Proposer.nextProposal, List.get?_eq_none.2 h]

theorem nextProposal_spec_witness :
    (⟨"B", ["X"], none, none, 0⟩ : Proposer).nextProposal
        = ((["X"] : List String).get? 0, ⟨"B", ["X"], none, none, 1⟩) ∧
      (⟨"A", [], none, none, 0⟩ : Proposer).nextProposal
        = (none, ⟨"A", [], none, none, 0⟩) :=
  ⟨(nextProposal_spec ⟨"B", ["X"], none, none, 0⟩).1 (by decide),
    (nextProposal_spec ⟨"A", [], none, none, 0⟩).2 (by decide)⟩

/-- C4 counterexample: on a valid input with preference-list lengths
summing to 2, the loop is still running after 2 iterations and needs a
third to reach the terminal state — refuting the bound
"at most Σ preference-list lengths iterations". -/
theorem doMatch_exceeds_preference_sum_bound :
    (c4Init.proposers.map (fun p => p.priorities.length)).sum = 2 ∧
      runStable 2 c4Init = RunResult.fuelOut ∧
      runStable 3 c4Init = RunResult.finished c4Final := by decide

/-- C4 amended: the stable loop always terminates, within
(Σ preference-list lengths) + (number of proposers) iterations: each
iteration either consumes one untried preference entry or permanently
retires one proposer. -/
theorem doMatch_terminates (s : MatchState) (hI : SInv s) :
    ∃ t, runStable ((s.proposers.map (fun p => p.priorities.length)).sum
        + s.proposers.length) s = RunResult.finished t ∧
      t.unmatched = [] := by
  obtain ⟨t, hrun, _, hnil⟩ := runStable_total hI
  refine ⟨t, runStable_mono hrun ?_, hnil⟩
  have hb1 : measureP s.proposers ≤
      (s.proposers.map (fun p => p.priorities.length)).sum := by
    refine List.sum_le_sum ?_
    intro p _
    exact Nat.sub_le _ _
  have hsub : s.unmatched ⊆ s.proposers.map Proposer.name := by
    intro u hu
    obtain ⟨p, hp, hpn⟩ := hI.toInvG.unmSub u hu
    exact hpn ▸ List.mem_map_of_mem Proposer.name hp
  have hb2 : s.unmatched.length ≤ s.proposers.length := by
    have := (hI.toInvG.nodupU.subperm hsub).length_le
    rwa [List.length_map] at this
  simp only [measureS]
  omega

theorem doMatch_terminates_witness :
    ∃ t, runStable
        ((c4Init.proposers.map (fun p => p.priorities.length)).sum
          + c4Init.proposers.length) c4Init = RunResult.finished t ∧
      t.unmatched = [] :=
  doMatch_terminates c4Init (checkInit_sinv (by decide))

/-- C5: `evaluateProposal` (stable policy) rejects a suitor absent from
the rank lookup; otherwise it accepts exactly when the proposee is
unpartnered or the suitor's rank index is strictly lower than the
current partner's; on acceptance it sets `rank` to the suitor's 0-based
rank plus 1 and leaves `partner` unchanged. -/
theorem evaluateProposal_spec (w : Proposee) (sid : String) :
    (rankOf w.priorities sid = none →
      w.evaluateProposal sid = some (false, w)) ∧
    (∀ rs, rankOf w.priorities sid = some rs → w.partner = none →
      w.evaluateProposal sid = some (true, { w with rank := some (rs + 1) })) ∧
    (∀ rs pt rp, rankOf w.priorities sid = some rs → w.partner = some pt →
      rankOf w.priorities pt = some rp →
      (rs < rp →
        w.evaluateProposal sid = some (true, { w with rank := some (rs + 1) })) ∧
      (¬ rs < rp → w.evaluateProposal sid = some (false, w))) := by
  refine ⟨?_, ?_, ?_⟩
  · intro h
    simp only [Proposee.evaluateProposal, h]
  · intro rs hrs hp
    simp only [Proposee.evaluateProposal, hrs, hp]
  · intro rs pt rp hrs hp hrp
    constructor
    · intro hlt
      simp only [Proposee.evaluateProposal, hrs, hp, hrp, if_pos hlt]
    · intro hlt
      simp only [Proposee.evaluateProposal, hrs, hp, hrp, if_neg hlt]

theorem evaluateProposal_spec_witness :
    (⟨"X", ["B", "A"], some "A", some 2⟩ : Proposee).evaluateProposal "B"
        = some (true, ⟨"X", ["B", "A"], some "A", some 1⟩) ∧
      (⟨"X", ["B", "A"], some "B", some 1⟩ : Proposee).evaluateProposal "A"
        = some (false, ⟨"X", ["B", "A"], some "B", some 1⟩) ∧
      (⟨"X", ["B", "A"], none, none⟩ : Proposee).evaluateProposal "Q"
        = some (false, ⟨"X", ["B", "A"], none, none⟩) :=
  ⟨((evaluateProposal_spec ⟨"X", ["B", "A"], some "A", some 2⟩ "B").2.2
      0 "A" 1 (by decide) (by decide) (by decide)).1 (by decide),
    ((evaluateProposal_spec ⟨"X", ["B", "A"], some "B", some 1⟩ "A").2.2
      1 "B" 0 (by decide) (by decide) (by decide)).2 (by decide),
    (evaluateProposal_spec ⟨"X", ["B", "A"], none, none⟩ "Q").1
      (by decide)⟩

/-! ### Greedy non-displacement -/

theorem wnames_greedyStep {s s' : MatchState}
    (h : greedyStep s = StepOut.cont s') :
    s'.proposees.map Proposee.name = s.proposees.map Proposee.name := by
  obtain ⟨m0, rest, m, hu, hf, hcase⟩ := greedyStep_cont h
  rcases hcase with ⟨mx, hnp, hs'⟩ | ⟨n, m1, who, hnp, hw0, hcase2⟩
  · subst hs'
    rfl
  · rcases hcase2 with ⟨who1, hev, hwho1, hs'⟩ | ⟨who1, hev, hwp, hw1p, hs'⟩
    · subst hs'
      exact updBy_map_nm
    · subst hs'
      exact updBy_map_nm

theorem greedy_keeps_partner {s s' : MatchState}
    (hnd : (s.proposees.map Proposee.name).Nodup)
    (h : greedyStep s = StepOut.cont s') :
    ∀ w ∈ s.proposees, ∀ x, w.partner = some x →
      findBy Proposee.name s'.proposees w.name = some w := by
  intro w hw x hwx
  obtain ⟨m0, rest, m, hu, hf, hcase⟩ := greedyStep_cont h
  rcases hcase with ⟨mx, hnp, hs'⟩ | ⟨n, m1, who, hnp, hw0, hcase2⟩
  · subst hs'
    exact findBy_mem hw hnd
  · obtain ⟨hwm, hwn⟩ := findBy_some hw0
    rcases hcase2 with ⟨who1, hev, hwho1, hs'⟩ | ⟨who1, hev, hwp, hw1p, hs'⟩
    · subst hs'
      have hwm1 : who1 ∈ s.proposees := by
        rw [hwho1]
        exact hwm
      show findBy Proposee.name (updBy Proposee.name s.proposees who1)
        w.name = some w
      rw [updBy_self_eq hwm1 hnd]
      exact findBy_mem hw hnd
    · subst hs'
      obtain ⟨rs, hrs, hwp2, hw1⟩ := evalGreedy_true hev
      subst hw1
      have hne : w.name ≠ who.name := by
        intro hc
        have : w = who := mem_unique_of_nodup hw hwm hc hnd
        rw [this, hwp2] at hwx
        cases hwx
      have hne2 : w.name ≠ Proposee.name
          (⟨who.name, who.priorities, some m1.name, some (rs + 1)⟩ :
            Proposee) := hne
      show findBy Proposee.name (updBy Proposee.name s.proposees
        ⟨who.name, who.priorities, some m1.name, some (rs + 1)⟩)
        w.name = some w
      exact (findBy_updBy_ne hne2).trans (findBy_mem hw hnd)

theorem greedy_keeps_partner_steps : ∀ (k : Nat) (s t : MatchState),
    (s.proposees.map Proposee.name).Nodup →
    stepsFrom greedyStep k s = some t →
    ∀ w ∈ s.proposees, ∀ x, w.partner = some x →
      findBy Proposee.name t.proposees w.name = some w := by
  intro k
  induction k with
  | zero =>
    intro s t hnd hsteps w hw x hwx
    simp only [stepsFrom] at hsteps
    cases hsteps
    exact findBy_mem hw hnd
  | succ k0 ih =>
    intro s t hnd hsteps w hw x hwx
    simp only [stepsFrom] at hsteps
    cases hst : greedyStep s with
    | halt => rw [hst] at hsteps; cases hsteps
    | fail => rw [hst] at hsteps; cases hsteps
    | cont s2 =>
      rw [hst] at hsteps
      have hkeep := greedy_keeps_partner hnd hst w hw x hwx
      obtain ⟨hw2mem, _⟩ := findBy_some hkeep
      have hnd2 : (s2.proposees.map Proposee.name).Nodup := by
        rw [wnames_greedyStep hst]
        exact hnd
      exact ih s2 t hnd2 hsteps w hw2mem x hwx

/-- C6: In greedy mode (`doGreedyMatch`), once a proposee is matched it
is never unmatched (its record, partner included, survives the rest of
the run verbatim); `evaluateGreedily` accepts only unpartnered
proposees, so the engine's displacement branch is never entered. -/
theorem greedy_no_displacement :
    (∀ (w : Proposee) (sid : String),
      (w.evaluateGreedily sid).1 = true → w.partner = none) ∧
    (∀ (k : Nat) (s t : MatchState),
      (s.proposees.map Proposee.name).Nodup →
      stepsFrom greedyStep k s = some t →
      ∀ w ∈ s.proposees, ∀ x, w.partner = some x →
        findBy Proposee.name t.proposees w.name = some w) := by
  constructor
  · intro w sid h
    cases hev : w.evaluateGreedily sid with
    | mk b w1 =>
      rw [hev] at h
      simp only [] at h
      subst h
      obtain ⟨rs, _, hwp, _⟩ := evalGreedy_true hev
      exact hwp
  · exact greedy_keeps_partner_steps

theorem greedy_no_displacement_witness :
    (⟨"Y", ["B"], none, none⟩ : Proposee).partner = none ∧
      findBy Proposee.name gFinal.proposees
        (⟨"X", ["B", "A"], some "A", some 2⟩ : Proposee).name
        = some ⟨"X", ["B", "A"], some "A", some 2⟩ :=
  ⟨greedy_no_displacement.1 ⟨"Y", ["B"], none, none⟩ "B" (by decide),
    greedy_no_displacement.2 2 gMid1 gFinal (by decide) (by decide)
      ⟨"X", ["B", "A"], some "A", some 2⟩ (by decide) "A" (by decide)⟩

/-! ### Quiescent-point symmetry -/

/-- The partner relation is symmetric: every partner pointer is
reciprocated by the named agent on the other side. -/
def PartnerSym (s : MatchState) : Prop :=
  (∀ p ∈ s.proposers, ∀ wn, p.partner = some wn →
    ∃ w ∈ s.proposees, w.name = wn ∧ w.partner = some p.name) ∧
  (∀ w ∈ s.proposees, ∀ pn, w.partner = some pn →
    ∃ p ∈ s.proposers, p.name = pn ∧ p.partner = some w.name)

/-- C7: At every quiescent point between loop iterations (and in the
final state), in both modes, the partner relation is symmetric: no
agent holds a partner that does not hold it in return. -/
theorem partner_relation_symmetric :
    (∀ (k : Nat) (s t : MatchState), SInv s →
      stepsFrom stableStep k s = some t → PartnerSym t) ∧
    (∀ (k : Nat) (s t : MatchState), InvG s →
      stepsFrom greedyStep k s = some t → PartnerSym t) := by
  constructor
  · intro k s t hI hsteps
    have hIt := stepsFrom_sinv hI hsteps
    exact ⟨hIt.toInvG.symPW, hIt.toInvG.symWP⟩
  · intro k s t hI hsteps
    have hIt := stepsFrom_invG hI hsteps
    exact ⟨hIt.symPW, hIt.symWP⟩

theorem partner_relation_symmetric_witness :
    PartnerSym ex1Mid2 ∧ PartnerSym gMid1 :=
  ⟨partner_relation_symmetric.1 2 ex1Init ex1Mid2
      (checkInit_sinv (by decide)) (by decide),
    partner_relation_symmetric.2 1 gInit gMid1
      (checkInit_sinv (by decide)).toInvG (by decide)⟩

/-- C8: At every quiescent point of the stable loop, a matched
proposer's `rank` equals its proposal cursor (the 1-based count of
proposals made, including the accepted one) — the cursor does not move
while it stays matched — and a matched proposee's `rank` equals 1 plus
the accepted suitor's 0-based position in its preference list. -/
theorem rank_cursor_agreement (k : Nat) (s t : MatchState) (hI : SInv s)
    (hsteps : stepsFrom stableStep k s = some t) :
    (∀ p ∈ t.proposers, p.partner ≠ none →
      p.rank = some p.proposalIndex) ∧
    (∀ w ∈ t.proposees, ∀ pn, w.partner = some pn →
      ∃ r, rankOf w.priorities pn = some r ∧ w.rank = some (r + 1)) := by
  have hIt := stepsFrom_sinv hI hsteps
  exact ⟨hIt.prank, hIt.wrank⟩

theorem rank_cursor_agreement_witness :
    (∀ p ∈ ex1Mid1.proposers, p.partner ≠ none →
      p.rank = some p.proposalIndex) ∧
    (∀ w ∈ ex1Mid1.proposees, ∀ pn, w.partner = some pn →
      ∃ r, rankOf w.priorities pn = some r ∧ w.rank = some (r + 1)) :=
  rank_cursor_agreement 1 ex1Init ex1Mid1 (checkInit_sinv (by decide))
    (by decide)

/-- C9 counterexample: after `A` is dumped, its `partner` is unset but
its `rank` is 0 (`some 0`), which differs from the never-matched state
(`rank` unset, `none`) it started in. -/
theorem dump_rank_not_unset :
    stepsFrom stableStep 2 c9Init = some c9Mid2 ∧
      findBy Proposer.name c9Init.proposers "A"
        = some ⟨"A", ["X"], none, none, 0⟩ ∧
      findBy Proposer.name c9Mid2.proposers "A"
        = some ⟨"A", ["X"], none, some 0, 1⟩ ∧
      ¬ ((some 0 : Option Nat) = (none : Option Nat)) := by decide

/-- C9 amended: when a proposer is dumped, its `partner` is cleared and
its `rank` is overwritten in the same step — but `rank` is set to the
sentinel 0, not back to the unset never-matched value — and the dumped
proposer is re-queued at the end of `unmatched`. -/
theorem dump_clears_partner_rank_zero (s s' : MatchState) (hI : SInv s)
    (h : stableStep s = StepOut.cont s') :
    ∀ p ∈ s.proposers, p.partner ≠ none →
      ∀ p2, findBy Proposer.name s'.proposers p.name = some p2 →
        p2.partner = none → p2.rank = some 0 ∧ p.name ∈ s'.unmatched := by
  intro p hp hpnn p2 hfind hp2
  obtain ⟨m0, rest, m, hu, hf, hcase⟩ := stableStep_cont h
  obtain ⟨hm, hmn⟩ := findBy_some hf
  have h1 := hI.toInvG.nodupP
  have hmp : m.partner = none := by
    refine hI.toInvG.unmFree m hm ?_
    rw [hu, hmn]
    exact List.mem_cons_self m0 rest
  have hpm : p.name ≠ m.name := by
    intro hc
    have hx : p = m := mem_unique_of_nodup hp hm hc h1
    rw [hx, hmp] at hpnn
    exact hpnn rfl
  obtain ⟨hp2mem, hp2name⟩ := findBy_some hfind
  rcases hcase with ⟨mx, hnp, hs'⟩ | ⟨n, m1, who, hnp, hw0, hcase2⟩
  · subst hs'
    have hx : p2 = p := mem_unique_of_nodup hp2mem hp hp2name h1
    rw [hx] at hp2
    exact absurd hp2 hpnn
  · obtain ⟨hget, hm1⟩ := nextProposal_some hnp
    rcases hcase2 with ⟨who1, hev, hs'⟩ | ⟨who1, hev, hpt, hs'⟩ |
      ⟨who1, pt, mOld, hev, hpt, hne, hfo, hs'⟩
    · subst hs'
      rcases mem_updBy hp2mem with rfl | ⟨hpmem, hpne⟩
      · exfalso
        apply hpm
        have hx : m.name = p.name := by
          rw [hm1] at hp2name
          exact hp2name
        exact hx.symm
      · have hx : p2 = p := mem_unique_of_nodup hpmem hp hp2name h1
        rw [hx] at hp2
        exact absurd hp2 hpnn
    · subst hs'
      rcases mem_updBy hp2mem with rfl | ⟨hpmem, hpne⟩
      · exfalso
        apply hpm
        have hx : m.name = p.name := by
          rw [hm1] at hp2name
          exact hp2name
        exact hx.symm
      · have hx : p2 = p := mem_unique_of_nodup hpmem hp hp2name h1
        rw [hx] at hp2
        exact absurd hp2 hpnn
    · subst hs'
      obtain ⟨hmold, hmoldnm⟩ := findBy_some hfo
      rcases mem_updBy hp2mem with rfl | ⟨hpmem1, hpne1⟩
      · exfalso
        apply hpm
        have hx : m.name = p.name := by
          rw [hm1] at hp2name
          exact hp2name
        exact hx.symm
      · rcases mem_updBy hpmem1 with rfl | ⟨hpmem, hpne⟩
        · refine ⟨rfl, ?_⟩
          have hx : mOld.name = p.name := hp2name
          rw [← hx]
          exact List.mem_append.2 (Or.inr (List.mem_singleton.2 rfl))
        · have hx : p2 = p := mem_unique_of_nodup hpmem hp hp2name h1
          rw [hx] at hp2
          exact absurd hp2 hpnn

theorem dump_clears_partner_rank_zero_witness :
    (⟨"A", ["X"], none, some 0, 1⟩ : Proposer).rank = some 0 ∧
      (⟨"A", ["X"], some "X", some 1, 1⟩ : Proposer).name
        ∈ c9Mid2.unmatched :=
  dump_clears_partner_rank_zero c9Mid1 c9Mid2
    (stepsFrom_sinv (checkInit_sinv (by decide))
      (by decide : stepsFrom stableStep 1 c9Init = some c9Mid1))
    (by decide) ⟨"A", ["X"], some "X", some 1, 1⟩ (by decide) (by decide)
    ⟨"A", ["X"], none, some 0, 1⟩ (by decide) (by decide)

/-- C10: In stable mode a matched proposee only trades up: whenever a
step changes a matched proposee's partner, the new partner sits at a
strictly lower (better) index in its preference list than the old one,
so the proposee's `rank` strictly decreases across the change. -/
theorem proposee_rank_improves (k : Nat) (s u u2 : MatchState)
    (hI : SInv s) (hsteps : stepsFrom stableStep k s = some u)
    (hstep : stableStep u = StepOut.cont u2) :
    ∀ w ∈ u.proposees, ∀ a, w.partner = some a →
      ∀ w2 b, findBy Proposee.name u2.proposees w.name = some w2 →
        w2.partner = some b → a ≠ b →
        ∃ ra rb, rankOf w.priorities a = some ra ∧
          rankOf w.priorities b = some rb ∧ rb < ra ∧
          w.rank = some (ra + 1) ∧ w2.rank = some (rb + 1) := by
  have hIu := stepsFrom_sinv hI hsteps
  intro w hw a hwa w2 b hfind hw2b hab
  have h2 := hIu.toInvG.nodupW
  obtain ⟨hw2mem, hw2name⟩ := findBy_some hfind
  obtain ⟨m0, rest, m, hu2, hf, hcase⟩ := stableStep_cont hstep
  rcases hcase with ⟨mx, hnp, hs'⟩ | ⟨n, m1, who, hnp, hw0, hcase2⟩
  · subst hs'
    have hx : w2 = w := mem_unique_of_nodup hw2mem hw hw2name h2
    rw [hx, hwa] at hw2b
    exact absurd (Option.some_inj.1 hw2b) hab
  · obtain ⟨hwm, hwn⟩ := findBy_some hw0
    rcases hcase2 with ⟨who1, hev, hs'⟩ | ⟨who1, hev, hpt, hs'⟩ |
      ⟨who1, pt, mOld, hev, hpt, hne, hfo, hs'⟩
    · subst hs'
      obtain ⟨hwho1, _⟩ := evalProposal_false hev
      have hw2mem2 : w2 ∈ updBy Proposee.name u.proposees who1 := hw2mem
      rw [hwho1, updBy_self_eq hwm h2] at hw2mem2
      have hx : w2 = w := mem_unique_of_nodup hw2mem2 hw hw2name h2
      rw [hx, hwa] at hw2b
      exact absurd (Option.some_inj.1 hw2b) hab
    · subst hs'
      obtain ⟨rs, hrs, hw1, hOr⟩ := evalProposal_true hev
      subst hw1
      have hwp : who.partner = none := by
        rcases hpt with hx | hx
        · exact hx
        · obtain ⟨pp, hpp, hppn, _⟩ := hIu.toInvG.symWP who hwm "" hx
          exact absurd hppn (hIu.pnameNe pp hpp)
      have hw2mem2 : w2 ∈ updBy Proposee.name u.proposees
          ⟨who.name, who.priorities, some m1.name, some (rs + 1)⟩ := hw2mem
      rcases mem_updBy hw2mem2 with rfl | ⟨hwmem, hwne⟩
      · exfalso
        have hx : w.name = who.name := hw2name.symm
        have hweq : w = who := mem_unique_of_nodup hw hwm hx h2
        rw [hweq, hwp] at hwa
        cases hwa
      · have hx : w2 = w := mem_unique_of_nodup hwmem hw hw2name h2
        rw [hx, hwa] at hw2b
        exact absurd (Option.some_inj.1 hw2b) hab
    · subst hs'
      obtain ⟨rs, hrs, hw1, hOr⟩ := evalProposal_true hev
      subst hw1
      have hptw : who.partner = some pt := hpt
      obtain ⟨rp, hrp, hlt⟩ : ∃ rp, rankOf who.priorities pt = some rp ∧
          rs < rp := by
        rcases hOr with hx | ⟨pt2, rp, hpt2, hrp2, hlt2⟩
        · rw [hptw] at hx
          cases hx
        · rw [hptw] at hpt2
          have hy : pt2 = pt := Option.some_inj.1 hpt2.symm
          subst hy
          exact ⟨rp, hrp2, hlt2⟩
      have hw2mem2 : w2 ∈ updBy Proposee.name u.proposees
          ⟨who.name, who.priorities, some m1.name, some (rs + 1)⟩ := hw2mem
      rcases mem_updBy hw2mem2 with rfl | ⟨hwmem, hwne⟩
      · have hx : w.name = who.name := hw2name.symm
        have hweq : w = who := mem_unique_of_nodup hw hwm hx h2
        have haw : who.partner = some a := by
          rw [← hweq]
          exact hwa
        have hae : a = pt := by
          rw [hptw] at haw
          exact (Option.some_inj.1 haw).symm
        have hbe : b = m1.name := (Option.some_inj.1 hw2b).symm
        obtain ⟨r, hr, hrank⟩ := hIu.wrank w hw a hwa
        have hre : r = rp := by
          rw [hweq, hae] at hr
          rw [hr] at hrp
          exact Option.some_inj.1 hrp
        refine ⟨rp, rs, ?_, ?_, hlt, ?_, rfl⟩
        · rw [hweq, hae]
          exact hrp
        · rw [hweq, hbe]
          exact hrs
        · rw [hrank, hre]
      · have hx : w2 = w := mem_unique_of_nodup hwmem hw hw2name h2
        rw [hx, hwa] at hw2b
        exact absurd (Option.some_inj.1 hw2b) hab

theorem proposee_rank_improves_witness :
    ∃ ra rb, rankOf (["B", "A"] : List String) "A" = some ra ∧
      rankOf (["B", "A"] : List String) "B" = some rb ∧ rb < ra ∧
      (some 2 : Option Nat) = some (ra + 1) ∧
      (some 1 : Option Nat) = some (rb + 1) :=
  proposee_rank_improves 1 c9Init c9Mid1 c9Mid2
    (checkInit_sinv (by decide)) (by decide) (by decide)
    ⟨"X", ["B", "A"], some "A", some 2⟩ (by decide) "A" (by decide)
    ⟨"X", ["B", "A"], some "B", some 1⟩ "B" (by decide) (by decide)
    (by decide)
